import Mathlib

/-!
Verification development for the CurricuForge study-planner (`src/app.py`).

The file shallowly embeds the four parsing/normalization functions and the
deterministic timetable generator of `app.py` into Lean:

  * `tryParseJson`      — `try_parse_json`      (app.py lines 52–95)
  * `parseTextToTable`  — `parse_text_to_table` (app.py lines 98–149)
  * `buildWeeklyGrid`   — `build_weekly_grid`   (app.py lines 152–261)
  * `convertToTriplets` — `convert_to_triplets` (app.py lines 264–325)
  * `generateTimetable` — `generate_timetable`  (app.py lines 327–427)

Python values that can flow through these functions are modelled by the
inductive type `PyVal`; dictionaries are insertion-ordered association lists
with string keys (all dictionaries produced or consumed by this program have
string keys).  JSON numbers are modelled by integers: the float/NaN/Infinity
fragment of Python's `json` module is outside the model.  Python exceptions
are modelled by `Except PyErr`.  Character classes (`str.strip`, `\s`, lower
casing) are modelled on their ASCII subset.
-/

namespace CF

/-- Python values (the fragment that flows through app.py's data pipeline). -/
inductive PyVal where
  | str  (s : String)
  | int  (n : Int)
  | bool (b : Bool)
  | none
  | list (xs : List PyVal)
  | dict (kvs : List (String × PyVal))

/-- Structural induction principle for `PyVal` (the nested lists make the
auto-generated recursor awkward to use directly). -/
def PyVal.indOn {P : PyVal → Prop}
    (hstr : ∀ s, P (.str s)) (hint : ∀ n, P (.int n))
    (hbool : ∀ b, P (.bool b)) (hnone : P .none)
    (hlist : ∀ xs, (∀ x ∈ xs, P x) → P (.list xs))
    (hdict : ∀ kvs, (∀ kv ∈ kvs, P (Prod.snd kv)) → P (.dict kvs)) :
    ∀ v, P v
  | .str s => hstr s
  | .int n => hint n
  | .bool b => hbool b
  | .none => hnone
  | .list xs => hlist xs (fun x hx =>
      have : sizeOf x < 1 + sizeOf xs := by
        have := List.sizeOf_lt_of_mem hx; omega
      PyVal.indOn hstr hint hbool hnone hlist hdict x)
  | .dict kvs => hdict kvs (fun kv hkv =>
      have : sizeOf kv.2 < 1 + sizeOf kvs := by
        have h1 := List.sizeOf_lt_of_mem hkv
        have h2 : sizeOf kv.2 < sizeOf kv := by
          obtain ⟨k, v⟩ := kv; simp
        omega
      PyVal.indOn hstr hint hbool hnone hlist hdict kv.2)
termination_by v => sizeOf v

mutual
/-- Boolean equality on `PyVal`. -/
def pyBeq : PyVal → PyVal → Bool
  | .str a, .str b => a = b
  | .int a, .int b => a = b
  | .bool a, .bool b => a = b
  | .none, .none => true
  | .list xs, .list ys => pyBeqL xs ys
  | .dict xs, .dict ys => pyBeqD xs ys
  | _, _ => false

def pyBeqL : List PyVal → List PyVal → Bool
  | [], [] => true
  | x :: xs, y :: ys => pyBeq x y && pyBeqL xs ys
  | _, _ => false

def pyBeqD : List (String × PyVal) → List (String × PyVal) → Bool
  | [], [] => true
  | (k, v) :: xs, (l, w) :: ys => k = l && pyBeq v w && pyBeqD xs ys
  | _, _ => false
end

theorem pyBeq_iff : ∀ a b, pyBeq a b = true ↔ a = b := by
  intro a
  induction a using PyVal.indOn with
  | hstr s => intro b; cases b <;> simp [pyBeq]
  | hint n => intro b; cases b <;> simp [pyBeq]
  | hbool x => intro b; cases b <;> simp [pyBeq]
  | hnone => intro b; cases b <;> simp [pyBeq]
  | hlist xs ih =>
      intro b
      cases b <;> simp [pyBeq]
      rename_i ys
      induction xs generalizing ys with
      | nil => cases ys <;> simp [pyBeqL]
      | cons x xs ihx =>
          cases ys with
          | nil => simp [pyBeqL]
          | cons y ys =>
              simp only [pyBeqL, Bool.and_eq_true, List.cons.injEq]
              constructor
              · rintro ⟨h1, h2⟩
                exact ⟨(ih x (by simp) y).mp h1,
                  (ihx (fun z hz => ih z (by simp [hz])) ys).mp h2⟩
              · rintro ⟨h1, h2⟩
                exact ⟨(ih x (by simp) y).mpr h1,
                  (ihx (fun z hz => ih z (by simp [hz])) ys).mpr h2⟩
  | hdict kvs ih =>
      intro b
      cases b <;> simp [pyBeq]
      rename_i ys
      induction kvs generalizing ys with
      | nil => cases ys <;> simp [pyBeqD]
      | cons kv kvs ihx =>
          cases ys with
          | nil => simp [pyBeqD]
          | cons lw ys =>
              obtain ⟨k, v⟩ := kv; obtain ⟨l, w⟩ := lw
              simp only [pyBeqD, Bool.and_eq_true, List.cons.injEq,
                Prod.mk.injEq, decide_eq_true_eq]
              constructor
              · rintro ⟨⟨h0, h1⟩, h2⟩
                exact ⟨⟨h0, (ih (k, v) (by simp) w).mp h1⟩,
                  (ihx (fun z hz => ih z (by simp [hz])) ys).mp h2⟩
              · rintro ⟨⟨h0, h1⟩, h2⟩
                exact ⟨⟨h0, (ih (k, v) (by simp) w).mpr h1⟩,
                  (ihx (fun z hz => ih z (by simp [hz])) ys).mpr h2⟩

instance : DecidableEq PyVal := fun a b => decidable_of_iff _ (pyBeq_iff a b)

instance {α β : Type} [DecidableEq α] [DecidableEq β] :
    DecidableEq (Except α β) := fun a b =>
  match a, b with
  | .ok x, .ok y =>
      if h : x = y then .isTrue (by rw [h]) else .isFalse fun hh => h (Except.ok.inj hh)
  | .error x, .error y =>
      if h : x = y then .isTrue (by rw [h]) else .isFalse fun hh => h (Except.error.inj hh)
  | .ok _, .error _ => .isFalse fun hh => Except.noConfusion hh
  | .error _, .ok _ => .isFalse fun hh => Except.noConfusion hh

/-- Python exception kinds raised by the embedded code. -/
inductive PyErr where
  | nameError
  | typeError
  | attributeError
  | indexError
deriving DecidableEq, Repr

/-- Python truthiness (`bool(v)`) for the modelled values. -/
def pyTruthy : PyVal → Bool
  | .str s => s != ""
  | .int n => n != 0
  | .bool b => b
  | .none => false
  | .list xs => !xs.isEmpty
  | .dict kvs => !kvs.isEmpty

/-- Lookup in an insertion-ordered dict (`d[k]` / `k in d`). -/
def pyGet : List (String × PyVal) → String → Option PyVal
  | [], _ => Option.none
  | (k', v) :: kvs, k => if k' = k then some v else pyGet kvs k

/-- `d.get(k, default)`. -/
def pyGetD (kvs : List (String × PyVal)) (k : String) (d : PyVal) : PyVal :=
  (pyGet kvs k).getD d

/-- `d[k] = v`: update in place when the key exists, append otherwise
(Python dicts keep the original insertion position on update). -/
def pyDictSet : List (String × PyVal) → String → PyVal → List (String × PyVal)
  | [], k, v => [(k, v)]
  | (k', v') :: kvs, k, v =>
      if k' = k then (k, v) :: kvs else (k', v') :: pyDictSet kvs k v

/-- ASCII whitespace stripped by Python's `str.strip()` (unicode spaces are
outside the model). -/
def pyIsSpace (c : Char) : Bool :=
  c = ' ' || c = '\t' || c = '\n' || c = '\r' || c = '\x0b' || c = '\x0c'

/-- `strip()` on a character list. -/
def stripL (l : List Char) : List Char :=
  (l.dropWhile pyIsSpace).reverse.dropWhile pyIsSpace |>.reverse

/-- `str.strip()` on the ASCII-whitespace model. -/
def pyStrip (s : String) : String := ⟨stripL s.data⟩

/-- `str.lower()` (ASCII model). -/
def pyLower (s : String) : String := ⟨s.data.map Char.toLower⟩

/-- Does `pat` occur as a prefix of `cs`? -/
def listStartsWith : List Char → List Char → Bool
  | _, [] => true
  | [], _ :: _ => false
  | c :: cs, p :: ps => c = p && listStartsWith cs ps

/-- `haystack.find(needle)` — index of the first occurrence, `none` for `-1`. -/
def pyFindAux : List Char → List Char → Nat → Option Nat
  | cs, pat, i =>
    if listStartsWith cs pat then some i
    else match cs with
      | [] => Option.none
      | _ :: rest => pyFindAux rest pat (i + 1)

def pyFind (cs pat : List Char) : Option Nat := pyFindAux cs pat 0

/-- `needle in haystack` for strings (substring containment). -/
def pyContains (hay sub : String) : Bool := (pyFind hay.data sub.data).isSome

/-- `s[i:j]` with non-negative indices. -/
def pySlice (s : String) (i j : Nat) : String := ⟨(s.data.take j).drop i⟩

/-- `s.split(delim)` for a non-empty exact delimiter, leftmost and
non-overlapping, keeping empty pieces (Python `str.split` with an
argument).  The fuel argument (one more than the remaining length) only
makes the recursion structural. -/
def pySplitGo (delim : List Char) : Nat → List Char → List Char → List (List Char)
  | 0, rest, acc => [acc.reverse ++ rest]
  | _ + 1, [], acc => [acc.reverse]
  | fuel + 1, c :: cs, acc =>
      if delim ≠ [] && listStartsWith (c :: cs) delim then
        acc.reverse :: pySplitGo delim fuel ((c :: cs).drop delim.length) []
      else pySplitGo delim fuel cs (c :: acc)

def pySplit (s delim : String) : List String :=
  (pySplitGo delim.data (s.data.length + 1) s.data []).map fun cs => ⟨cs⟩

/-- Decimal digits of `n`, accumulated least-significant-first into `acc`;
the fuel (at least the digit count) makes the recursion structural. -/
def natDigitsGo : Nat → Nat → List Char → List Char
  | 0, _, acc => acc
  | fuel + 1, n, acc =>
      let acc' := Char.ofNat (48 + n % 10) :: acc
      if n < 10 then acc' else natDigitsGo fuel (n / 10) acc'

/-- Decimal digits of a natural number, no leading zeros (`"0"` for 0). -/
def natDigits (n : Nat) : List Char := natDigitsGo (n + 1) n []

def natStr (n : Nat) : String := ⟨natDigits n⟩

/-- Numeric value of a list of decimal digits (most significant first). -/
def digitsVal (cs : List Char) : Nat :=
  cs.foldl (fun acc c => acc * 10 + (c.toNat - 48)) 0

/-! ## JSON (`json.loads` model; integer numbers, no float/NaN fragment) -/

/-- JSON whitespace as skipped by Python's `json` scanner. -/
def jsonWS (c : Char) : Bool := c = ' ' || c = '\t' || c = '\n' || c = '\r'

def skipWs (cs : List Char) : List Char := cs.dropWhile jsonWS

def hexVal (c : Char) : Option Nat :=
  if '0' ≤ c ∧ c ≤ '9' then some (c.toNat - 48)
  else if 'a' ≤ c ∧ c ≤ 'f' then some (c.toNat - 87)
  else if 'A' ≤ c ∧ c ≤ 'F' then some (c.toNat - 55)
  else Option.none

/-- Parse the body of a JSON string literal (after the opening quote):
returns the decoded characters and the input after the closing quote.
Mirrors Python's strict decoder: escapes `\" \\ \/ \b \f \n \r \t \uXXXX`,
unescaped control characters rejected. -/
def parseStringBody : List Char → Option (List Char × List Char)
  | [] => Option.none
  | c :: cs =>
      if c = '"' then some ([], cs)
      else if c = '\\' then
        match cs with
        | [] => Option.none
        | e :: cs2 =>
            if e = '"' then (parseStringBody cs2).map fun p => ('"' :: p.1, p.2)
            else if e = '\\' then (parseStringBody cs2).map fun p => ('\\' :: p.1, p.2)
            else if e = '/' then (parseStringBody cs2).map fun p => ('/' :: p.1, p.2)
            else if e = 'b' then (parseStringBody cs2).map fun p => ('\x08' :: p.1, p.2)
            else if e = 'f' then (parseStringBody cs2).map fun p => ('\x0c' :: p.1, p.2)
            else if e = 'n' then (parseStringBody cs2).map fun p => ('\n' :: p.1, p.2)
            else if e = 'r' then (parseStringBody cs2).map fun p => ('\r' :: p.1, p.2)
            else if e = 't' then (parseStringBody cs2).map fun p => ('\t' :: p.1, p.2)
            else if e = 'u' then
              match cs2 with
              | h1 :: h2 :: h3 :: h4 :: cs3 =>
                  match hexVal h1, hexVal h2, hexVal h3, hexVal h4 with
                  | some a, some b, some c2, some d =>
                      (parseStringBody cs3).map fun p =>
                        (Char.ofNat (((a * 16 + b) * 16 + c2) * 16 + d) :: p.1, p.2)
                  | _, _, _, _ => Option.none
              | _ => Option.none
            else Option.none
      else if c.toNat < 32 then Option.none
      else (parseStringBody cs).map fun p => (c :: p.1, p.2)

/-- JSON natural-number token: `0 | [1-9][0-9]*` (a leading `0` is its own
token, as in Python's number grammar). -/
def parseJNat : List Char → Option (Nat × List Char)
  | [] => Option.none
  | c :: cs =>
      if c = '0' then some (0, cs)
      else if c.isDigit then
        some (digitsVal (c :: cs.takeWhile Char.isDigit), cs.dropWhile Char.isDigit)
      else Option.none

def parseJInt : List Char → Option (Int × List Char)
  | '-' :: cs => (parseJNat cs).map fun p => (-(p.1 : Int), p.2)
  | cs => (parseJNat cs).map fun p => ((p.1 : Int), p.2)

/-- Parser mode: a plain value, the member loop of an object (with the
members parsed so far), or the item loop of an array. -/
inductive JMode where
  | value
  | members (acc : List (String × PyVal))
  | items (acc : List PyVal)

/-- The JSON value parser.  The fuel is decremented on every recursive call
(keeping the recursion structural); `2 * length + 4` fuel always suffices
since every fuel unit consumes input.  Duplicate object keys follow
Python's last-wins/first-position semantics via `pyDictSet`. -/
def parseF : Nat → JMode → List Char → Option (PyVal × List Char)
  | 0, _, _ => Option.none
  | fuel + 1, .value, cs =>
      match cs with
      | [] => Option.none
      | c :: cs1 =>
          if c = '{' then
            match skipWs cs1 with
            | '}' :: r => some (.dict [], r)
            | cs2 => parseF fuel (.members []) cs2
          else if c = '[' then
            match skipWs cs1 with
            | ']' :: r => some (.list [], r)
            | cs2 => parseF fuel (.items []) cs2
          else if c = '"' then
            (parseStringBody cs1).map fun p => (.str ⟨p.1⟩, p.2)
          else if c = 't' then
            if listStartsWith cs1 ['r', 'u', 'e'] then some (.bool true, cs1.drop 3)
            else Option.none
          else if c = 'f' then
            if listStartsWith cs1 ['a', 'l', 's', 'e'] then some (.bool false, cs1.drop 4)
            else Option.none
          else if c = 'n' then
            if listStartsWith cs1 ['u', 'l', 'l'] then some (.none, cs1.drop 3)
            else Option.none
          else
            (parseJInt cs).map fun p => (.int p.1, p.2)
  | fuel + 1, .members acc, cs =>
      match cs with
      | '"' :: cs1 =>
          match parseStringBody cs1 with
          | Option.none => Option.none
          | some (k, cs2) =>
              match skipWs cs2 with
              | ':' :: cs3 =>
                  match parseF fuel .value (skipWs cs3) with
                  | Option.none => Option.none
                  | some (v, cs4) =>
                      match skipWs cs4 with
                      | ',' :: cs5 => parseF fuel (.members (pyDictSet acc ⟨k⟩ v)) (skipWs cs5)
                      | '}' :: cs5 => some (.dict (pyDictSet acc ⟨k⟩ v), cs5)
                      | _ => Option.none
              | _ => Option.none
      | _ => Option.none
  | fuel + 1, .items acc, cs =>
      match parseF fuel .value cs with
      | Option.none => Option.none
      | some (v, cs1) =>
          match skipWs cs1 with
          | ',' :: cs2 => parseF fuel (.items (acc ++ [v])) (skipWs cs2)
          | ']' :: cs2 => some (.list (acc ++ [v]), cs2)
          | _ => Option.none

/-- `json.loads`: skip whitespace, parse one value, require only
whitespace after it.  `Option.none` models a raised `JSONDecodeError`. -/
def jsonLoads (s : String) : Option PyVal :=
  match parseF (2 * s.data.length + 4) .value (skipWs s.data) with
  | some (v, rest) => if rest.all jsonWS then some v else Option.none
  | Option.none => Option.none

/-- Continuation of the item loop of `parseF` after one array element parses;
split out so the loop can be reasoned about one step at a time. -/
def itemsCont (f : Nat) (acc : List PyVal) (p : PyVal × List Char) :
    Option (PyVal × List Char) :=
  match skipWs p.2 with
  | ',' :: cs2 => parseF f (.items (acc ++ [p.1])) (skipWs cs2)
  | ']' :: cs2 => some (.list (acc ++ [p.1]), cs2)
  | _ => Option.none

/-- Continuation of the member loop of `parseF` after one member value parses. -/
def membersVCont (f : Nat) (acc : List (String × PyVal)) (k : List Char)
    (p : PyVal × List Char) : Option (PyVal × List Char) :=
  match skipWs p.2 with
  | ',' :: cs5 => parseF f (.members (pyDictSet acc ⟨k⟩ p.1)) (skipWs cs5)
  | '}' :: cs5 => some (.dict (pyDictSet acc ⟨k⟩ p.1), cs5)
  | _ => Option.none

/-- Hex digit character (lower case), for serializing control characters. -/
def hexDigit (n : Nat) : Char :=
  if n < 10 then Char.ofNat (48 + n) else Char.ofNat (87 + n)

/-- JSON escape of one character: quote and backslash escaped, control
characters as `\u00XX`, everything else verbatim. -/
def escChar (c : Char) : List Char :=
  if c = '"' then ['\\', '"']
  else if c = '\\' then ['\\', '\\']
  else if c.toNat < 32 then
    ['\\', 'u', '0', '0', hexDigit (c.toNat / 16), hexDigit (c.toNat % 16)]
  else [c]

/-- Serialized JSON string literal. -/
def serStrL (s : String) : List Char := '"' :: (s.data.map escChar).join ++ ['"']

def serIntL : Int → List Char
  | .ofNat m => natDigits m
  | .negSucc m => '-' :: natDigits (m + 1)

mutual
/-- Compact JSON serialization of a value (as `json.dumps` with
separators `","` and `":"` would produce). -/
def serVal : PyVal → List Char
  | .str s => serStrL s
  | .int n => serIntL n
  | .bool true => ['t', 'r', 'u', 'e']
  | .bool false => ['f', 'a', 'l', 's', 'e']
  | .none => ['n', 'u', 'l', 'l']
  | .list xs => '[' :: serItems xs ++ [']']
  | .dict kvs => '{' :: serMembers kvs ++ ['}']

def serItems : List PyVal → List Char
  | [] => []
  | [x] => serVal x
  | x :: y :: xs => serVal x ++ ',' :: serItems (y :: xs)

def serMembers : List (String × PyVal) → List Char
  | [] => []
  | [(k, v)] => serStrL k ++ ':' :: serVal v
  | (k, v) :: kv :: kvs => serStrL k ++ ':' :: serVal v ++ ',' :: serMembers (kv :: kvs)
end

def pySerialize (v : PyVal) : String := ⟨serVal v⟩

def keysFresh : List String → Bool
  | [] => true
  | k :: ks => !ks.contains k && keysFresh ks

mutual
/-- Well-formed values for the serialization round trip: object keys are
duplicate-free, recursively. -/
def pyWF : PyVal → Bool
  | .list xs => pyWFL xs
  | .dict kvs => keysFresh (kvs.map Prod.fst) && pyWFD kvs
  | _ => true

def pyWFL : List PyVal → Bool
  | [] => true
  | x :: xs => pyWF x && pyWFL xs

def pyWFD : List (String × PyVal) → Bool
  | [] => true
  | (_, v) :: kvs => pyWF v && pyWFD kvs
end

mutual
/-- Fuel sufficient for `parseF` to parse the serialization of a value. -/
def pvFuel : PyVal → Nat
  | .list xs => 1 + pvFuelL xs
  | .dict kvs => 1 + pvFuelD kvs
  | _ => 1

def pvFuelL : List PyVal → Nat
  | [] => 1
  | x :: xs => 1 + pvFuel x + pvFuelL xs

def pvFuelD : List (String × PyVal) → Nat
  | [] => 1
  | (_, v) :: kvs => 1 + pvFuel v + pvFuelD kvs
end

/-! ## `try_parse_json` (app.py lines 52–95) -/

/-- Scan for the `}` matching the `{` the scan starts on, counting raw
brace depth (app.py lines 70–82); returns the offset just past it. -/
def matchBrace : List Char → Nat → Nat → Option Nat
  | [], _, _ => Option.none
  | c :: cs, i, depth =>
      if c = '{' then matchBrace cs (i + 1) (depth + 1)
      else if c = '}' then
        if depth = 1 then some (i + 1) else matchBrace cs (i + 1) (depth - 1)
      else matchBrace cs (i + 1) depth

def pyRfindCharAux : List Char → Char → Nat → Option Nat → Option Nat
  | [], _, _, best => best
  | x :: xs, c, i, best =>
      pyRfindCharAux xs c (i + 1) (if x = c then some i else best)

/-- `s.rfind(c, 0, bound)`: last index `< bound` holding `c`. -/
def pyRfindChar (cs : List Char) (c : Char) (bound : Nat) : Option Nat :=
  pyRfindCharAux (cs.take bound) c 0 Option.none

/-- The brute-force suffix loop of `try_parse_json` (app.py lines 89–94):
try `s[start:end]` for `end` from `len(s)` down to `start+1`, returning
the first parse that succeeds. -/
def tpjLoop (s : String) (start : Nat) : Nat → PyVal
  | 0 => PyVal.none
  | e + 1 =>
      if e + 1 ≤ start then PyVal.none
      else
        match jsonLoads (pySlice s start (e + 1)) with
        | some v => v
        | Option.none => tpjLoop s start e

/-- `try_parse_json` (app.py lines 52–95).  Returns `PyVal.none` both for
"nothing parsed" and for a parsed JSON `null`, exactly as the Python
function returns `None` in both cases. -/
def tryParseJson (s : String) : PyVal :=
  match jsonLoads s with
  | some v => v
  | Option.none =>
    let cs := s.data
    let keyIdx :=
      match pyFind cs ('"' :: "timetable".data ++ ['"']) with
      | some i => some i
      | Option.none => pyFind cs "timetable".data
    let viaKey : Option PyVal :=
      match keyIdx with
      | Option.none => Option.none
      | some ki =>
          match pyRfindChar cs '{' ki with
          | Option.none => Option.none
          | some st =>
              match matchBrace (cs.drop st) 0 0 with
              | Option.none => Option.none
              | some off => jsonLoads (pySlice s st (st + off))
    match viaKey with
    | some v => v
    | Option.none =>
        match pyFind cs ['{'], pyFind cs ['['] with
        | Option.none, Option.none => PyVal.none
        | some i, Option.none => tpjLoop s i cs.length
        | Option.none, some j => tpjLoop s j cs.length
        | some i, some j => tpjLoop s (min i j) cs.length

/-- The `timetable` key index computed by `try_parse_json` (app.py lines
75–78): the quoted key `"timetable"` is looked up first, then the bare
word.  Names the corresponding subterm of `tryParseJson`. -/
def tpjKeyIdx (cs : List Char) : Option Nat :=
  match pyFind cs ('"' :: "timetable".data ++ ['"']) with
  | some i => some i
  | Option.none => pyFind cs "timetable".data

/-- The candidate slice bounds `(start, end)` of the key-targeted
extraction of `try_parse_json` (app.py lines 79–85), when the key, the
preceding `'{'` and the matching brace are all found.  This is the one
slice that stage of the code attempts to parse. -/
def tpjViaKeySlice (s : String) : Option (Nat × Nat) :=
  match tpjKeyIdx s.data with
  | Option.none => Option.none
  | some ki =>
      match pyRfindChar s.data '{' ki with
      | Option.none => Option.none
      | some st =>
          match matchBrace (s.data.drop st) 0 0 with
          | Option.none => Option.none
          | some off => some (st, st + off)

/-- The start position of the brute-force suffix loop of `try_parse_json`
(app.py lines 87–88): the first `'{'` or `'['`, whichever comes first;
`Option.none` when the input has neither. -/
def tpjStart (cs : List Char) : Option Nat :=
  match pyFind cs ['{'], pyFind cs ['['] with
  | Option.none, Option.none => Option.none
  | some i, Option.none => some i
  | Option.none, some j => some j
  | some i, some j => some (min i j)

/-- "No parse attempt of `try_parse_json` succeeds": the direct
`json.loads` of the whole string fails, the one key-targeted slice (if
that stage produces one) fails to parse, and every slice
`s[start:end]` for `end` from `len(s)` down to `start+1` attempted by
the brute-force suffix loop (if a bracket exists) fails to parse.
These are exactly the parse attempts the function makes, no more. -/
def tpjAttemptsFail (s : String) : Bool :=
  (jsonLoads s).isNone &&
  (match tpjViaKeySlice s with
   | some (st, en) => (jsonLoads (pySlice s st en)).isNone
   | Option.none => true) &&
  (match tpjStart s.data with
   | Option.none => true
   | some st =>
       (List.range (s.data.length + 1)).all fun e =>
         decide (e ≤ st) || (jsonLoads (pySlice s st e)).isNone)

/-- A period/time/activity entry as the Python dict the code builds. -/
def mkEntry (period time activity : String) : PyVal :=
  .dict [("period", .str period), ("time", .str time), ("activity", .str activity)]

/-! ## Text Table Parser (`parse_text_to_table`, app.py lines 98–149) -/

/-- `re` module `\s` on its ASCII subset. -/
def isReSpace (c : Char) : Bool :=
  c = ' ' || c = '\t' || c = '\n' || c = '\r' || c = '\x0b' || c = '\x0c'

def isDashChar (c : Char) : Bool := c = '-' || c = '–' || c = '—'

/-- Match `\d{1,2}:` at the head (greedy two digits, backtracking to one),
returning the rest. -/
def matchHC : List Char → Option (List Char)
  | a :: rest =>
      if a.isDigit then
        match rest with
        | b :: rest2 =>
            if b.isDigit then
              match rest2 with
              | ':' :: rest3 => some rest3
              | _ => Option.none
            else if b = ':' then some rest2
            else Option.none
        | [] => Option.none
      else Option.none
  | [] => Option.none

/-- Match `\d{2}` at the head, returning the rest. -/
def match2D : List Char → Option (List Char)
  | a :: b :: r => if a.isDigit && b.isDigit then some r else Option.none
  | _ => Option.none

/-- Match the time-range pattern `\d{1,2}:\d{2}\s*[-–—]\s*\d{1,2}:\d{2}`
(app.py line 106) at the head, returning the matched length. -/
def matchTimeRange (cs : List Char) : Option Nat :=
  match matchHC cs with
  | Option.none => Option.none
  | some r1 =>
      match match2D r1 with
      | Option.none => Option.none
      | some r2 =>
          match r2.dropWhile isReSpace with
          | [] => Option.none
          | d :: r4 =>
              if isDashChar d then
                match matchHC (r4.dropWhile isReSpace) with
                | Option.none => Option.none
                | some r6 =>
                    match match2D r6 with
                    | Option.none => Option.none
                    | some r7 => some (cs.length - r7.length)
              else Option.none

/-- `finditer`: non-overlapping leftmost matches, as `(start, end)` index
pairs.  Fuel keeps the recursion structural. -/
def findTimeMatchesGo : Nat → Nat → List Char → List (Nat × Nat)
  | 0, _, _ => []
  | fuel + 1, i, cs =>
      match cs with
      | [] => []
      | _ :: rest =>
          match matchTimeRange cs with
          | some L => (i, i + L) :: findTimeMatchesGo fuel (i + L) (cs.drop L)
          | Option.none => findTimeMatchesGo fuel (i + 1) rest

def timeMatches (cs : List Char) : List (Nat × Nat) :=
  findTimeMatchesGo (cs.length + 1) 0 cs

/-- Leftmost-match scanner for a head matcher. -/
def scanFirst {α : Type} (f : List Char → Option α) : Nat → List Char → Option α
  | 0, _ => Option.none
  | fuel + 1, cs =>
      match f cs with
      | some x => some x
      | Option.none =>
          match cs with
          | [] => Option.none
          | _ :: rest => scanFirst f fuel rest

/-- Head match of `Day\s*\d[^\n\r\-:]*` (app.py line 121, case sensitive),
returning the matched text. -/
def matchDayPhrase (cs : List Char) : Option (List Char) :=
  if listStartsWith cs ['D', 'a', 'y'] then
    let r1 := (cs.drop 3).dropWhile isReSpace
    match r1 with
    | d :: r2 =>
        if d.isDigit then
          let r3 := r2.dropWhile fun c => !(c = '\n' || c = '\r' || c = '-' || c = ':')
          some (cs.take (cs.length - r3.length))
        else Option.none
    | [] => Option.none
  else Option.none

/-- Head match of `Day\s*(\d+)` case-insensitively (app.py line 214 and
line 308), returning the digit group. -/
def matchDayNum (cs : List Char) : Option (List Char) :=
  match cs with
  | c1 :: c2 :: c3 :: r =>
      if c1.toLower = 'd' && c2.toLower = 'a' && c3.toLower = 'y' then
        let ds := (r.dropWhile isReSpace).takeWhile Char.isDigit
        if ds.isEmpty then Option.none else some ds
      else Option.none
  | _ => Option.none

/-- `s.rfind("\n\n", 0, bound)`: start of the last occurrence of a blank
line fully inside `s[0:bound]`. -/
def rfindNNAux : List Char → Nat → Option Nat → Option Nat
  | c1 :: c2 :: rest, i, best =>
      rfindNNAux (c2 :: rest) (i + 1) (if c1 = '\n' && c2 = '\n' then some i else best)
  | _, _, best => best

def rfindNN (cs : List Char) (bound : Nat) : Option Nat :=
  rfindNNAux (cs.take bound) 0 Option.none

/-- Characters removed by `re.sub(r"^[\-–—:\s]+", '', ...)` (app.py
line 132). -/
def leadPunct (c : Char) : Bool :=
  c = '-' || c = '–' || c = '—' || c = ':' || isReSpace c

/-- `str.split()` with no argument: split on whitespace runs, no empties. -/
def splitWsGo : Nat → List Char → List (List Char)
  | 0, _ => []
  | _ + 1, [] => []
  | fuel + 1, c :: cs =>
      if pyIsSpace c then splitWsGo fuel cs
      else (c :: cs.takeWhile fun x => !pyIsSpace x) ::
        splitWsGo fuel (cs.dropWhile fun x => !pyIsSpace x)

def joinSpace : List (List Char) → List Char
  | [] => []
  | [w] => w
  | w :: w2 :: ws => w ++ ' ' :: joinSpace (w2 :: ws)

/-- `' '.join(x.split())`: collapse whitespace runs to single spaces. -/
def collapseWs (cs : List Char) : List Char :=
  joinSpace (splitWsGo (cs.length + 1) cs)

/-- One row of the match-based branch of `parse_text_to_table`
(app.py lines 110–136): `st, en` are the match bounds, `endI` the start of
the next match (or the text length). -/
def textRow (s : List Char) (st en endI : Nat) : Option PyVal :=
  let blockStart := (rfindNN s st).getD 0
  let pre := (s.take st).drop blockStart
  let period : List Char :=
    match scanFirst matchDayPhrase (pre.length + 1) pre with
    | some m => stripL m
    | Option.none =>
        let chunk := stripL ((s.take endI).drop blockStart)
        match pySplit ⟨chunk⟩ "\n" with
        | [] => []
        | l1 :: _ => stripL l1.data
  let timeStr := stripL ((s.take en).drop st)
  let activity := collapseWs (((s.take endI).drop en).dropWhile pyIsSpace |>.dropWhile leadPunct)
  if activity.isEmpty then Option.none
  else some (mkEntry ⟨period⟩ ⟨timeStr⟩ ⟨activity⟩)

/-- `parse_text_to_table` (app.py lines 98–149): `Option.none` models the
Python `None` returns (non-string input, or no entries produced). -/
def parseTextToTable (text : PyVal) : Option (List PyVal) :=
  match text with
  | .str s0 =>
      let s : List Char :=
        (s0.data.filter fun c => c ≠ '\r').map fun c => if c = '\t' then ' ' else c
      let ms := timeMatches s
      let entries : List PyVal :=
        if ms.isEmpty then
          let blocks := ((pySplit ⟨s⟩ "\n\n").map pyStrip).filter fun b => b ≠ ""
          blocks.filterMap fun b =>
            match ((pySplit b "\n").map pyStrip).filter (fun ln => ln ≠ "") with
            | [] => Option.none
            | l1 :: rest =>
                some (mkEntry l1 "" (if rest.isEmpty then "" else ⟨joinSpace (rest.map String.data)⟩))
        else
          (List.range ms.length).filterMap fun i =>
            match ms.get? i with
            | Option.none => Option.none
            | some (st, en) =>
                textRow s st en (match ms.get? (i + 1) with
                                 | some m2 => m2.1
                                 | Option.none => s.length)
      if entries.isEmpty then Option.none else some entries
  | _ => Option.none

/-! ## Slot Generator (`generate_timetable`, app.py lines 327–427) -/

/-- One raw slot of the generator loop (app.py lines 367–379).  The Python
code stores the tuple `(format_span(start, end), is_break, topic_index)`;
the embedding keeps the numeric span from which the string is formatted
(`topicIdx` is `0` on break slots, where the code stores `None` and never
reads it). -/
structure RawSlot where
  startMin : Nat
  endMin : Nat
  isBreak : Bool
  topicIdx : Nat
deriving DecidableEq, Repr

/-- `f"{n:02d}"`. -/
def pad2 (n : Nat) : String := if n < 10 then "0" ++ natStr n else natStr n

/-- `format_span` (app.py lines 362–365). -/
def formatSpan (startMin endMin : Nat) : String :=
  pad2 (startMin / 60) ++ ":" ++ pad2 (startMin % 60) ++ "-" ++
  pad2 (endMin / 60) ++ ":" ++ pad2 (endMin % 60)

/-- Study duration of topic `i`: `base + (1 if i < extra else 0)`
(app.py line 370). -/
def slotDur (base extra i : Nat) : Nat := base + (if i < extra then 1 else 0)

/-- The slot-building loop (app.py lines 367–379): `left` topics remain,
`i` is the current topic index, `cur` the running clock in minutes. -/
def rawSlotsGo (base extra : Nat) : Nat → Nat → Nat → List RawSlot
  | 0, _, _ => []
  | 1, i, cur => [⟨cur, cur + slotDur base extra i, false, i⟩]
  | left + 2, i, cur =>
      let d := slotDur base extra i
      ⟨cur, cur + d, false, i⟩ :: ⟨cur + d, cur + d + 10, true, 0⟩ ::
        rawSlotsGo base extra (left + 1) (i + 1) (cur + d + 10)

/-- `raw_times` for `n` topics, starting at `9 * 60` minutes. -/
def rawSlots (base extra n : Nat) : List RawSlot := rawSlotsGo base extra n 0 (9 * 60)

/-- `subj` (app.py line 334): trimmed subject when it is a string, else
`"Study"`. -/
def gtSubj (subject : PyVal) : String :=
  match subject with
  | .str s => pyStrip s
  | _ => "Study"

/-- The comma-split/trim/drop-empties step (app.py lines 336–337). -/
def gtSplitTopics (topics_str : PyVal) : List String :=
  match topics_str with
  | .str s => ((pySplit s ",").map pyStrip).filter (· ≠ "")
  | _ => []

/-- Topic list of `generate_timetable` (app.py lines 335–339). -/
def gtTopics (subject topics_str : PyVal) : List String :=
  let ts := gtSplitTopics topics_str
  if ts = [] then [gtSubj subject] else ts

/-- `topic_label` (app.py lines 343–344). -/
def topicLabel (topics : List String) (i : Nat) : String :=
  (topics.get? (i % topics.length)).getD ""

/-- First run of decimal digits in a string (`re.search(r"(\d+)", ft)`),
as used on the free-time field (app.py lines 348–349); `none` if no digit. -/
def firstDigitRun : List Char → Option (List Char)
  | [] => Option.none
  | c :: cs =>
      if c.isDigit then some (c :: cs.takeWhile Char.isDigit)
      else firstDigitRun cs

/-- `hours` (app.py lines 340, 348–349): first integer in the free-time
string, defaulting to 1. -/
def gtHours (free_time : PyVal) : Nat :=
  let ft := match free_time with | .str s => pyStrip s | _ => ""
  match firstDigitRun ft.data with
  | some ds => digitsVal ds
  | Option.none => 1

/-- Normalized plan (app.py line 341). -/
def gtPlan (plan_type : PyVal) : String :=
  match plan_type with
  | .str s => pyLower (pyStrip s)
  | _ => ""

/-- Daily shaping (app.py lines 381–388): one entry per raw slot,
`"Slot N"` periods, `topic_label(i // 2)` activities. -/
def dailyEntries (topics : List String) (slots : List RawSlot) : List PyVal :=
  (List.range slots.length).map fun i =>
    let s := slots.getD i ⟨0, 0, false, 0⟩
    mkEntry ("Slot " ++ natStr (i + 1)) (formatSpan s.startMin s.endMin)
      (if s.isBreak then "Break" else topicLabel topics (i / 2))

def weekDays : List String := ["Monday", "Tuesday", "Wednesday", "Thursday", "Friday"]

/-- Weekly shaping (app.py lines 390–403). -/
def weeklyRows (topics : List String) (slots : List RawSlot) : List PyVal :=
  slots.map fun s =>
    .dict (("time", .str (formatSpan s.startMin s.endMin)) ::
      weekDays.map fun d =>
        (d, .str (if s.isBreak then "Break" else topicLabel topics s.topicIdx)))

/-- Monthly shaping, first phase (app.py lines 407–414): study slots only,
first four labelled `"Week 1".."Week 4"`. -/
def monthlyBase (topics : List String) (slots : List RawSlot) : List PyVal :=
  let studies := slots.filter (fun s => !s.isBreak)
  (List.range (min 4 studies.length)).map fun w =>
    let s := studies.getD w ⟨0, 0, false, 0⟩
    mkEntry ("Week " ++ natStr (w + 1)) (formatSpan s.startMin s.endMin)
      (topicLabel topics s.topicIdx)

/-- The monthly padding `while` loop (app.py lines 416–418): append the last
entry until four exist; `result[-1]` on an empty list raises `IndexError`. -/
def padTo4 : Nat → List PyVal → Except PyErr (List PyVal)
  | 0, res => .ok res
  | fuel + 1, res =>
      if res.length < 4 then
        match res.getLast? with
        | Option.none => .error .indexError
        | some x => padTo4 fuel (res ++ [x])
      else .ok res

/-- The slot list `generate_timetable` builds for given inputs
(app.py lines 351–379). -/
def gtSlots (subject topics_str free_time : PyVal) : List RawSlot :=
  let topics := gtTopics subject topics_str
  let hours := gtHours free_time
  let nTopics := topics.length
  let breakMinutes := (nTopics - 1) * 10
  let totalStudy := hours * 60 - breakMinutes
  let base := totalStudy / nTopics
  let extra := totalStudy - base * nTopics
  rawSlots base extra nTopics

/-- `generate_timetable` (app.py lines 327–427).  The final fallback branch
(lines 422–427) references the undefined name `slots`, which raises a
`NameError` in Python; the embedding returns `.error .nameError` there. -/
def generateTimetable (subject topics_str free_time plan_type : PyVal) :
    Except PyErr PyVal :=
  let topics := gtTopics subject topics_str
  let plan := gtPlan plan_type
  let slots := gtSlots subject topics_str free_time
  if plan = "daily" then
    .ok (.list (dailyEntries topics slots))
  else if plan = "weekly" then
    .ok (.dict [("days", .list (weekDays.map .str)),
                ("rows", .list (weeklyRows topics slots))])
  else if plan = "monthly" then
    match padTo4 4 (monthlyBase topics slots) with
    | .ok res => .ok (.list res)
    | .error e => .error e
  else
    .error .nameError

/-! ## Grid Builder (`build_weekly_grid`, app.py lines 152–261) -/

/-- `for x in v`: Python iteration over the modelled values (list elements,
string characters, dict keys); everything else raises `TypeError`. -/
def toIterable : PyVal → Except PyErr (List PyVal)
  | .list xs => .ok xs
  | .str s => .ok (s.data.map fun c => .str ⟨[c]⟩)
  | .dict kvs => .ok (kvs.map fun kv => .str kv.1)
  | _ => .error .typeError

def defaultTimes12 : List String :=
  ["08:50-09:05", "09:05-09:35", "09:35-09:40", "09:40-10:20", "10:20-11:00",
   "11:00-11:20", "11:20-12:05", "12:05-12:25", "12:25-12:40", "12:40-13:30",
   "13:30-14:30", "14:30-16:00"]

def default5Times : List String :=
  ["09:00-10:30", "10:30-11:15", "11:30-12:30", "14:00-15:00", "15:15-16:00"]

/-- `{"time": t, day: "" for each day}` (app.py lines 182–186, 203–208). -/
def emptyRow (t : String) : PyVal :=
  .dict (("time", .str t) :: weekDays.map fun d => (d, .str ""))

/-- The all-empty fallback grid on the fixed 12-slot bell schedule
(app.py lines 178–187). -/
def defaultGrid : PyVal :=
  .dict [("days", .list (weekDays.map .str)),
         ("rows", .list (defaultTimes12.map emptyRow))]

/-- Entry resolution for a string source (app.py lines 166–176):
`.inl` is the early grid return, `.inr` the resolved entries (Python
`None` as `Option.none`). -/
def bwgResolveStr (s : String) : Sum PyVal (Option PyVal) :=
  match tryParseJson s with
  | .dict kvs =>
      if (pyGet kvs "timetable").isSome then
        .inr (some (pyGetD kvs "timetable" .none))
      else if (pyGet kvs "rows").isSome && (pyGet kvs "days").isSome then
        .inl (.dict [("days", pyGetD kvs "days" .none), ("rows", pyGetD kvs "rows" .none)])
      else .inr ((parseTextToTable (.str s)).map .list)
  | .list xs => .inr (some (.list xs))
  | _ => .inr ((parseTextToTable (.str s)).map .list)

/-- Source normalization of `build_weekly_grid` (app.py lines 158–176). -/
def bwgEntries (source : PyVal) : Sum PyVal (Option PyVal) :=
  match source with
  | .dict kvs =>
      if (pyGet kvs "rows").isSome && (pyGet kvs "days").isSome then
        .inl (.dict [("days", pyGetD kvs "days" .none), ("rows", pyGetD kvs "rows" .none)])
      else
        match pyGet kvs "timetable" with
        | some (.list tt) => .inr (some (.list tt))
        | _ => .inr Option.none
  | .list xs => .inr (some (.list xs))
  | .str s => bwgResolveStr s
  | _ => .inr Option.none

/-- The time-slot collection loop (app.py lines 190–196): distinct
stripped non-empty `time` values in first-seen order; a truthy non-string
`time` raises `AttributeError` at `.strip()`. -/
def collectTimes (entries : List PyVal) : Except PyErr (List String) :=
  entries.foldlM (fun times e =>
    match (match e with | .dict kvs => pyGet kvs "time" | _ => Option.none) with
    | Option.none => .ok times
    | some tv =>
        if pyTruthy tv then
          match tv with
          | .str ts =>
              let t2 := pyStrip ts
              if t2 ≠ "" && !times.contains t2 then .ok (times ++ [t2]) else .ok times
          | _ => .error .attributeError
        else .ok times) []

/-- `day_from_period` (app.py lines 211–223): `Day N` mapped 1-indexed
into the weekday list, falling through to a weekday-name substring scan;
a truthy non-string period raises `TypeError` inside `re.search`. -/
def dayFromPeriod (period : PyVal) : Except PyErr (Option String) :=
  if pyTruthy period then
    match period with
    | .str p =>
        let nameScan : Option String :=
          weekDays.find? fun d => pyContains (pyLower p) (pyLower d)
        match scanFirst matchDayNum (p.data.length + 1) p.data with
        | some ds =>
            let iv := digitsVal ds
            if 1 ≤ iv && iv ≤ 5 then .ok (weekDays.get? (iv - 1))
            else .ok nameScan
        | Option.none => .ok nameScan
    | _ => .error .typeError
  else .ok Option.none

/-- `min(day_counters, key=...)`: the first key of minimal count. -/
def argminDay (counters : List (String × Nat)) : String :=
  match counters with
  | [] => ""
  | dc0 :: rest =>
      (rest.foldl (fun best dc => if dc.2 < best.2 then dc else best) dc0).1

def counterGet (counters : List (String × Nat)) (d : String) : Nat :=
  ((counters.find? fun dc => dc.1 = d).map Prod.snd).getD 0

def counterInc (counters : List (String × Nat)) (d : String) : List (String × Nat) :=
  counters.map fun dc => if dc.1 = d then (dc.1, dc.2 + 1) else dc

/-- The row-lookup scan (app.py lines 242–247): first row whose time
label contains or is contained in the entry's time. -/
def rowTimeMatches (r : PyVal) (t : String) : Bool :=
  match r with
  | .dict kvs =>
      match pyGet kvs "time" with
      | some (.str rt) => pyContains rt t || pyContains t rt || t == rt
      | _ => false
  | _ => false

def findRowIdx (rows : List PyVal) (t : String) : Option Nat :=
  (List.range rows.length).find? fun i => rowTimeMatches (rows.getD i .none) t

/-- One iteration of the grid fill loop (app.py lines 228–259). -/
def fillEntry (st : List PyVal × List (String × Nat)) (e : PyVal) :
    Except PyErr (List PyVal × List (String × Nat)) :=
  match e with
  | .dict kvs =>
      let rows := st.1
      let counters := st.2
      let period := pyGetD kvs "period" (.str "")
      let activity := pyGetD kvs "activity" (.str "")
      let timeStr := pyGetD kvs "time" (.str "")
      match dayFromPeriod period with
      | .error er => .error er
      | .ok dayOpt =>
          let day := dayOpt.getD (argminDay counters)
          match (if pyTruthy timeStr then
                   match timeStr with
                   | .str ts => .ok (findRowIdx rows ts)
                   | _ => .error .typeError
                 else .ok Option.none : Except PyErr (Option Nat)) with
          | .error er => .error er
          | .ok ri =>
              let rowIdx := ri.getD (counterGet counters day % rows.length)
              match rows.getD rowIdx (.dict []) with
              | .dict rkvs =>
                  let existing := pyGetD rkvs day (.str "")
                  match (if pyTruthy existing then
                           match existing, activity with
                           | .str es, .str as2 => .ok (.str (es ++ "; " ++ as2))
                           | _, _ => .error .typeError
                         else .ok activity : Except PyErr PyVal) with
                  | .error er => .error er
                  | .ok newVal =>
                      .ok (rows.set rowIdx (.dict (pyDictSet rkvs day newVal)),
                           counterInc counters day)
              | _ => .error .typeError
  | _ => .ok st

/-- The grid fill loop over the entries (app.py line 228). -/
def fillLoop : List PyVal × List (String × Nat) → List PyVal →
    Except PyErr (List PyVal × List (String × Nat))
  | st, [] => .ok st
  | st, e :: es =>
      match fillEntry st e with
      | .error er => .error er
      | .ok st2 => fillLoop st2 es

/-- `build_weekly_grid` (app.py lines 152–261). -/
def buildWeeklyGrid (source : PyVal) : Except PyErr PyVal :=
  match bwgEntries source with
  | .inl g => .ok g
  | .inr entriesOpt =>
      let truthy := match entriesOpt with
        | Option.none => false
        | some v => pyTruthy v
      if truthy then
        match toIterable (entriesOpt.getD .none) with
        | .error e => .error e
        | .ok es =>
            match collectTimes es with
            | .error e => .error e
            | .ok times0 =>
                let times := if times0.length < 5 then default5Times else times0
                match fillLoop (times.map emptyRow, weekDays.map fun d => (d, 0)) es with
                | .error e => .error e
                | .ok st =>
                    .ok (.dict [("days", .list (weekDays.map .str)),
                                ("rows", .list st.1)])
      else .ok defaultGrid

/-! ## Triplet Converter (`convert_to_triplets`, app.py lines 264–325) -/

/-- A `{topic, day, time}` record; `topic` is always the stripped string
the code appends, `day` and `time` keep their Python values. -/
structure PyTriplet where
  topic : String
  day : PyVal
  time : PyVal
deriving DecidableEq

/-- The grid-branch cell value: `row.get(d, '')`, non-string day values
treated as absent keys. -/
def cellVal (rkvs : List (String × PyVal)) (d : PyVal) : PyVal :=
  match d with
  | .str dk => pyGetD rkvs dk (.str "")
  | _ => .str ""

/-- The inner day loop of the grid branch (app.py lines 272–279). -/
def gridDayLoop (rkvs : List (String × PyVal)) (time : PyVal) :
    List PyTriplet → List PyVal → Except PyErr (List PyTriplet)
  | acc, [] => .ok acc
  | acc, d :: ds =>
      let val := cellVal rkvs d
      if pyTruthy val then
        match val with
        | .str vs =>
            if pyStrip vs ≠ "" then gridDayLoop rkvs time (acc ++ [⟨pyStrip vs, d, time⟩]) ds
            else gridDayLoop rkvs time acc ds
        | _ => .error .attributeError
      else gridDayLoop rkvs time acc ds

/-- The outer row loop of the grid branch (app.py lines 270–279). -/
def gridRowLoop (daysV : PyVal) : List PyTriplet → List PyVal →
    Except PyErr (List PyTriplet)
  | acc, [] => .ok acc
  | acc, row :: rows =>
      match row with
      | .dict rkvs =>
          match toIterable daysV with
          | .error e => .error e
          | .ok ds =>
              match gridDayLoop rkvs (pyGetD rkvs "time" (.str "")) acc ds with
              | .error e => .error e
              | .ok acc2 => gridRowLoop daysV acc2 rows
      | _ => .error .attributeError

/-- The grid branch of `convert_to_triplets` (app.py lines 267–280). -/
def gridTriplets (kvs : List (String × PyVal)) : Except PyErr (List PyTriplet) :=
  match toIterable (pyGetD kvs "rows" .none) with
  | .error e => .error e
  | .ok rows => gridRowLoop (pyGetD kvs "days" .none) [] rows

/-- The `or`-chain selecting the topic of an entry (app.py line 303). -/
def topicOf (kvs : List (String × PyVal)) : PyVal :=
  if pyTruthy ((pyGet kvs "activity").getD .none) then (pyGet kvs "activity").getD .none
  else if pyTruthy (pyGetD kvs "activity" (.str "")) then pyGetD kvs "activity" (.str "")
  else if pyTruthy ((pyGet kvs "topic").getD .none) then (pyGet kvs "topic").getD .none
  else .str ""

/-- Day resolution of the entry branch (app.py lines 307–321): `Day N`
mapped into the weekday list; on a match with an out-of-range index the
day stays empty (no weekday-name scan, unlike `day_from_period`). -/
def tripletDay (p : String) : String :=
  match scanFirst matchDayNum (p.data.length + 1) p.data with
  | some ds =>
      let iv := digitsVal ds
      if 1 ≤ iv && iv ≤ 5 then (weekDays.get? (iv - 1)).getD "" else ""
  | Option.none =>
      (weekDays.find? fun d => pyContains (pyLower p) (pyLower d)).getD ""

/-- One entry of the entry-list branch (app.py lines 300–323). -/
def entryStep (acc : List PyTriplet) (e : PyVal) : Except PyErr (List PyTriplet) :=
  match e with
  | .dict kvs =>
      let topic := topicOf kvs
      let time := pyGetD kvs "time" (.str "")
      let period := pyGetD kvs "period" (.str "")
      match (if pyTruthy period then
               match period with
               | .str p => .ok p
               | _ => .error .typeError
             else .ok "" : Except PyErr String) with
      | .error er => .error er
      | .ok p =>
          if pyTruthy topic then
            match topic with
            | .str ts =>
                if pyStrip ts ≠ "" then .ok (acc ++ [⟨pyStrip ts, .str (tripletDay p), time⟩])
                else .ok acc
            | _ => .error .attributeError
          else .ok acc
  | _ => .ok acc

def entryLoop : List PyTriplet → List PyVal → Except PyErr (List PyTriplet)
  | acc, [] => .ok acc
  | acc, e :: es =>
      match entryStep acc e with
      | .error er => .error er
      | .ok acc2 => entryLoop acc2 es

/-- The entry-list branch of `convert_to_triplets` (app.py lines 299–323). -/
def entryTriplets (es : List PyVal) : Except PyErr (List PyTriplet) :=
  entryLoop [] es

/-- `convert_to_triplets` (app.py lines 264–325).  The recursive call on a
parsed rows/days dict (line 291) lands in the grid branch, inlined here as
`gridTriplets`. -/
def convertToTriplets (source : PyVal) : Except PyErr (List PyTriplet) :=
  match source with
  | .dict kvs =>
      if (pyGet kvs "rows").isSome && (pyGet kvs "days").isSome then gridTriplets kvs
      else
        match pyGet kvs "timetable" with
        | some tt =>
            if pyTruthy tt then
              match toIterable tt with
              | .error e => .error e
              | .ok es => entryTriplets es
            else .ok []
        | Option.none => .ok []
  | .list xs => if pyTruthy (.list xs) then entryTriplets xs else .ok []
  | .str s =>
      match tryParseJson s with
      | .dict pkvs =>
          if (pyGet pkvs "rows").isSome && (pyGet pkvs "days").isSome then gridTriplets pkvs
          else
            match pyGet pkvs "timetable" with
            | some tt =>
                if pyTruthy tt then
                  match toIterable tt with
                  | .error e => .error e
                  | .ok es => entryTriplets es
                else .ok []
            | Option.none =>
                match parseTextToTable (.str s) with
                | some es => if pyTruthy (.list es) then entryTriplets es else .ok []
                | Option.none => .ok []
      | .list xs => if pyTruthy (.list xs) then entryTriplets xs else .ok []
      | _ =>
          match parseTextToTable (.str s) with
          | some es => if pyTruthy (.list es) then entryTriplets es else .ok []
          | Option.none => .ok []
  | _ => .ok []

/-! ## Spec-side predicates used by the claim statements -/

/-- `not entries` (app.py line 178): no entries were recovered. -/
def noEntries : Option PyVal → Bool
  | Option.none => true
  | some v => !pyTruthy v

/-- The named cell of a row value. -/
def rowCell (r : PyVal) (d : String) : Option PyVal :=
  match r with
  | .dict rkvs => pyGet rkvs d
  | _ => Option.none

/-- The `WeeklyGrid` invariant as the spec states it (§3): every row has
exactly one value per configured day, and the number of per-day keys in
every row equals the number of days. -/
def specGridInvariant (g : PyVal) : Bool :=
  match g with
  | .dict kvs =>
      match pyGet kvs "days", pyGet kvs "rows" with
      | some (.list ds), some (.list rows) =>
          (ds.all fun d => match d with | .str _ => true | _ => false) &&
          rows.all fun r =>
            match r with
            | .dict rkvs =>
                (ds.all fun d =>
                  match d with
                  | .str dk => (pyGet rkvs dk).isSome
                  | _ => false) &&
                ((rkvs.filter fun kv => ds.contains (.str kv.1)).length == ds.length)
            | _ => false
      | _, _ => false
  | _ => false

/-- A constructed grid row: a dict whose keys are exactly `time` followed
by the five weekdays. -/
def rowShapeOK (r : PyVal) : Prop :=
  ∃ rkvs, r = .dict rkvs ∧ rkvs.map Prod.fst = "time" :: weekDays

/-- A value that can safely flow through a truthiness-guarded `.strip()`
or `re.search` call: a string, or anything falsy. -/
def isStrOrNotTruthy (v : PyVal) : Bool :=
  match v with
  | .str _ => true
  | v => !pyTruthy v

/-- Well-formedness of one entry for `convert_to_triplets`: the period and
the selected topic do not raise when used. -/
def entryOk (e : PyVal) : Bool :=
  match e with
  | .dict kvs =>
      isStrOrNotTruthy (pyGetD kvs "period" (.str "")) && isStrOrNotTruthy (topicOf kvs)
  | _ => true

/-- Well-formedness of a `timetable` value for `convert_to_triplets`. -/
def entriesOkV (v : PyVal) : Bool :=
  !pyTruthy v ||
    (match toIterable v with
     | .ok es => es.all entryOk
     | .error _ => false)

/-- Well-formedness of one grid row against the configured days. -/
def rowOkB (daysV row : PyVal) : Bool :=
  match row with
  | .dict rkvs =>
      match toIterable daysV with
      | .ok ds => ds.all fun d => isStrOrNotTruthy (cellVal rkvs d)
      | .error _ => false
  | _ => false

/-- Well-formedness of a rows/days grid dict for `convert_to_triplets`. -/
def gridOk (kvs : List (String × PyVal)) : Bool :=
  match toIterable (pyGetD kvs "rows" .none) with
  | .ok rows => rows.all (rowOkB (pyGetD kvs "days" .none))
  | .error _ => false

/-- Well-formedness of a `convert_to_triplets` source: every branch the
input can reach uses only string-or-falsy fields where the code calls
string methods.  Text-parser output is well-formed by construction and
needs no side condition. -/
def convertWF (source : PyVal) : Bool :=
  match source with
  | .dict kvs =>
      if (pyGet kvs "rows").isSome && (pyGet kvs "days").isSome then gridOk kvs
      else
        match pyGet kvs "timetable" with
        | some tt => entriesOkV tt
        | Option.none => true
  | .list xs => xs.all entryOk
  | .str s =>
      match tryParseJson s with
      | .dict pkvs =>
          if (pyGet pkvs "rows").isSome && (pyGet pkvs "days").isSome then gridOk pkvs
          else
            match pyGet pkvs "timetable" with
            | some tt => entriesOkV tt
            | Option.none => true
      | .list xs => xs.all entryOk
      | _ => true
  | _ => true

/-! ## Properties of the slot builder -/

/-- The spans of `slots` are contiguous starting at `cur`: each entry starts
where the previous one ends, no gaps or overlaps. -/
def chainedFrom : Nat → List RawSlot → Bool
  | _, [] => true
  | cur, s :: rest => s.startMin == cur && chainedFrom s.endMin rest

/-- The slots alternate between study and break entries, the first kind
determined by `expectBreak`. -/
def altFrom : Bool → List RawSlot → Bool
  | _, [] => true
  | expectBreak, s :: rest => s.isBreak == expectBreak && altFrom (!expectBreak) rest

/-- Every break slot spans exactly 10 minutes. -/
def breaksAreTen (slots : List RawSlot) : Bool :=
  slots.all fun s => !s.isBreak || s.endMin == s.startMin + 10

/-- Total study minutes across the non-break slots. -/
def studyMinutes (slots : List RawSlot) : Nat :=
  ((slots.filter fun s => !s.isBreak).map fun s => s.endMin - s.startMin).sum

/-- Sum of the study durations of topics `i, i+1, ..., i+k-1`. -/
def sumDur (base extra : Nat) : Nat → Nat → Nat
  | 0, _ => 0
  | k + 1, i => slotDur base extra i + sumDur base extra k (i + 1)

theorem rawSlotsGo_length (base extra : Nat) :
    ∀ k i cur, (rawSlotsGo base extra (k + 1) i cur).length = 2 * (k + 1) - 1 := by
  intro k
  induction k with
  | zero => intro i cur; simp [rawSlotsGo]
  | succ k ih =>
      intro i cur
      show (rawSlotsGo base extra (k + 2) i cur).length = _
      simp only [rawSlotsGo, List.length_cons, ih]
      omega

theorem rawSlotsGo_chained (base extra : Nat) :
    ∀ k i cur, chainedFrom cur (rawSlotsGo base extra k i cur) = true := by
  intro k
  induction k using Nat.strong_induction_on with
  | _ k ih =>
      intro i cur
      match k with
      | 0 => simp [rawSlotsGo, chainedFrom]
      | 1 => simp [rawSlotsGo, chainedFrom]
      | k + 2 =>
          have h := ih (k + 1) (by omega) (i + 1) (cur + slotDur base extra i + 10)
          simp [rawSlotsGo, chainedFrom, h]

theorem rawSlotsGo_alt (base extra : Nat) :
    ∀ k i cur, altFrom false (rawSlotsGo base extra k i cur) = true := by
  intro k
  induction k using Nat.strong_induction_on with
  | _ k ih =>
      intro i cur
      match k with
      | 0 => simp [rawSlotsGo, altFrom]
      | 1 => simp [rawSlotsGo, altFrom]
      | k + 2 =>
          have h := ih (k + 1) (by omega) (i + 1) (cur + slotDur base extra i + 10)
          simp [rawSlotsGo, altFrom, h]

theorem rawSlotsGo_breaksTen (base extra : Nat) :
    ∀ k i cur, breaksAreTen (rawSlotsGo base extra k i cur) = true := by
  intro k
  induction k using Nat.strong_induction_on with
  | _ k ih =>
      intro i cur
      match k with
      | 0 => simp [rawSlotsGo, breaksAreTen]
      | 1 => simp [rawSlotsGo, breaksAreTen]
      | k + 2 =>
          have h := ih (k + 1) (by omega) (i + 1)
            (cur + slotDur base extra i + 10)
          simp only [rawSlotsGo, breaksAreTen, List.all_cons] at h ⊢
          simp [h]

theorem rawSlotsGo_studySum (base extra : Nat) :
    ∀ k i cur, studyMinutes (rawSlotsGo base extra k i cur) = sumDur base extra k i := by
  intro k
  induction k using Nat.strong_induction_on with
  | _ k ih =>
      intro i cur
      match k with
      | 0 => simp [rawSlotsGo, studyMinutes, sumDur]
      | 1 => simp [rawSlotsGo, studyMinutes, sumDur]
      | k + 2 =>
          have h := ih (k + 1) (by omega) (i + 1)
            (cur + slotDur base extra i + 10)
          simp only [studyMinutes] at h ⊢
          have hs : sumDur base extra (k + 2) i =
              slotDur base extra i + sumDur base extra (k + 1) (i + 1) := rfl
          simp [rawSlotsGo, h, hs]

theorem rawSlotsGo_studyCount (base extra : Nat) :
    ∀ k i cur, ((rawSlotsGo base extra k i cur).filter fun s => !s.isBreak).length = k := by
  intro k
  induction k using Nat.strong_induction_on with
  | _ k ih =>
      intro i cur
      match k with
      | 0 => simp [rawSlotsGo]
      | 1 => simp [rawSlotsGo]
      | k + 2 =>
          have h := ih (k + 1) (by omega) (i + 1)
            (cur + slotDur base extra i + 10)
          simp only [rawSlotsGo, List.filter_cons, Bool.not_true, Bool.not_false] at h ⊢
          simp [h]

theorem sumDur_closed (base extra : Nat) :
    ∀ k i, sumDur base extra k i = k * base + (min extra (i + k) - min extra i) := by
  intro k
  induction k with
  | zero => intro i; simp [sumDur]
  | succ k ih =>
      intro i
      simp only [sumDur, ih (i + 1), slotDur, Nat.succ_mul]
      by_cases h : i < extra <;> simp [h] <;> omega

theorem gtTopics_ne_nil (subject topics_str : PyVal) :
    gtTopics subject topics_str ≠ [] := by
  unfold gtTopics
  by_cases h : gtSplitTopics topics_str = [] <;> simp [h]

theorem rawSlots_studyMinutes_total (T n : Nat) (hn : 1 ≤ n) :
    studyMinutes (rawSlots (T / n) (T - T / n * n) n) = T := by
  unfold rawSlots
  rw [rawSlotsGo_studySum, sumDur_closed]
  have h := Nat.div_add_mod T n
  have h2 : T % n < n := Nat.mod_lt _ (by omega)
  have h3 : T / n * n = n * (T / n) := Nat.mul_comm _ _
  rw [h3]
  generalize n * (T / n) = p at h ⊢
  generalize T % n = r at h h2
  omega

/-- The total study minutes of the generated slots, in closed form: the
hour count times 60, minus 10 minutes per inter-topic gap, clamped at 0. -/
theorem gtSlots_studyMinutes (subject topics_str free_time : PyVal) :
    (studyMinutes (gtSlots subject topics_str free_time) : Int) =
      max 0 ((gtHours free_time : Int) * 60 -
        10 * (((gtTopics subject topics_str).length : Int) - 1)) := by
  have hne := gtTopics_ne_nil subject topics_str
  have hn1 : 1 ≤ (gtTopics subject topics_str).length := List.length_pos.mpr hne
  have h := rawSlots_studyMinutes_total
    (gtHours free_time * 60 - ((gtTopics subject topics_str).length - 1) * 10)
    (gtTopics subject topics_str).length hn1
  simp only [gtSlots]
  rw [h]
  omega

/-- Closed form of the monthly padding loop: with enough fuel it appends
copies of the last entry until the list has four elements. -/
theorem padTo4_spec :
    ∀ fuel res, res ≠ [] → 4 ≤ res.length + fuel →
      padTo4 fuel res =
        .ok (res ++ List.replicate (4 - res.length) (res.getLast?.getD .none)) := by
  intro fuel
  induction fuel with
  | zero =>
      intro res _ h2
      have : 4 - res.length = 0 := by omega
      simp [padTo4, this]
  | succ fuel ih =>
      intro res h1 h2
      by_cases hl : res.length < 4
      · have hlast : res.getLast? = some (res.getLast h1) := List.getLast?_eq_getLast res h1
        have step : padTo4 (fuel + 1) res = padTo4 fuel (res ++ [res.getLast h1]) := by
          simp [padTo4, hl, hlast]
        rw [step, ih (res ++ [res.getLast h1]) (by simp) (by simp; omega)]
        have h3 : (res ++ [res.getLast h1]).getLast? = some (res.getLast h1) :=
          List.getLast?_concat res
        rw [h3, hlast]
        simp only [Option.getD_some, List.length_append, List.length_singleton,
          List.append_assoc, List.singleton_append]
        have h4 : 4 - res.length = (4 - (res.length + 1)) + 1 := by omega
        rw [h4, List.replicate_succ]
      · have : 4 - res.length = 0 := by omega
        simp [padTo4, hl, this]

theorem monthlyBase_length (topics : List String) (slots : List RawSlot) :
    (monthlyBase topics slots).length =
      min 4 (slots.filter fun s => !s.isBreak).length := by
  simp [monthlyBase]

theorem monthlyBase_get? (topics : List String) (slots : List RawSlot) (w : Nat)
    (hw : w < (monthlyBase topics slots).length) :
    ∃ t a, (monthlyBase topics slots).get? w =
      some (mkEntry ("Week " ++ natStr (w + 1)) t a) := by
  simp only [monthlyBase_length] at hw
  refine ⟨formatSpan ((slots.filter fun s => !s.isBreak).getD w ⟨0, 0, false, 0⟩).startMin
      ((slots.filter fun s => !s.isBreak).getD w ⟨0, 0, false, 0⟩).endMin,
    topicLabel topics ((slots.filter fun s => !s.isBreak).getD w ⟨0, 0, false, 0⟩).topicIdx, ?_⟩
  simp only [monthlyBase, List.get?_map, List.get?_range hw]
  rfl

/-! ## Claim theorems for the Slot Generator -/

/-- C1: for every topics list of size `n ≥ 1` and parsed hour count `h ≥ 1`,
`generate_timetable` with plan type `"daily"` returns the alternating
study/break sequence starting at 09:00 (minute 540) whose spans are
contiguous and whose study minutes sum to `max 0 (h*60 - 10*(n-1))`; and
the concrete Math/Algebra,Geometry/2-hours scenario yields exactly the
three expected entries. -/
theorem daily_plan_correct :
    (∀ subject topics_str free_time n h,
        (gtTopics subject topics_str).length = n →
        gtHours free_time = h → 1 ≤ h →
        ∃ slots : List RawSlot,
          generateTimetable subject topics_str free_time (.str "daily") =
            .ok (.list (dailyEntries (gtTopics subject topics_str) slots)) ∧
          chainedFrom (9 * 60) slots = true ∧
          altFrom false slots = true ∧
          breaksAreTen slots = true ∧
          slots.length = 2 * n - 1 ∧
          (studyMinutes slots : Int) =
            max 0 ((h : Int) * 60 - 10 * ((n : Int) - 1))) ∧
    generateTimetable (.str "Math") (.str "Algebra,Geometry") (.str "2 hours")
        (.str "daily") =
      .ok (.list [mkEntry "Slot 1" "09:00-09:55" "Algebra",
                  mkEntry "Slot 2" "09:55-10:05" "Break",
                  mkEntry "Slot 3" "10:05-11:00" "Geometry"]) := by
  constructor
  · intro subject topics_str free_time n h hn hh _
    refine ⟨gtSlots subject topics_str free_time, ?_, ?_, ?_, ?_, ?_, ?_⟩
    · have hplan : gtPlan (.str "daily") = "daily" := by decide
      simp [generateTimetable, hplan]
    · exact rawSlotsGo_chained _ _ _ _ _
    · exact rawSlotsGo_alt _ _ _ _ _
    · exact rawSlotsGo_breaksTen _ _ _ _ _
    · have h1 : 1 ≤ (gtTopics subject topics_str).length :=
        List.length_pos.mpr (gtTopics_ne_nil subject topics_str)
      rw [← hn]
      cases hc : (gtTopics subject topics_str).length with
      | zero => omega
      | succ k =>
          show (rawSlots _ _ ((gtTopics subject topics_str).length)).length = _
          rw [hc]
          exact rawSlotsGo_length _ _ _ _ _
    · rw [← hn, ← hh]
      exact gtSlots_studyMinutes subject topics_str free_time
  · decide

/-- Witness for `daily_plan_correct` at the concrete scenario inputs. -/
theorem daily_plan_correct_witness :
    ∃ slots : List RawSlot,
      generateTimetable (.str "Math") (.str "Algebra,Geometry") (.str "2 hours")
          (.str "daily") =
        .ok (.list (dailyEntries (gtTopics (.str "Math") (.str "Algebra,Geometry")) slots)) ∧
      chainedFrom (9 * 60) slots = true ∧
      altFrom false slots = true ∧
      breaksAreTen slots = true ∧
      slots.length = 2 * 2 - 1 ∧
      (studyMinutes slots : Int) =
        max 0 ((2 : Int) * 60 - 10 * ((2 : Int) - 1)) :=
  daily_plan_correct.1 (.str "Math") (.str "Algebra,Geometry") (.str "2 hours")
    2 2 (by decide) (by decide) (by decide)

/-- The topic-parsing rule exactly as the spec's words state it: split on
comma, trim, drop empties; on an empty result fall back to a single topic
equal to the trimmed subject, replaced by `"Study"` when the subject is
blank or not a string. -/
def specTopicsClaimed (subject topics_str : PyVal) : List String :=
  let ts := gtSplitTopics topics_str
  if ts = [] then
    [match subject with
     | .str s => if pyStrip s = "" then "Study" else pyStrip s
     | _ => "Study"]
  else ts

/-- The amended topic-parsing rule: `"Study"` is used only when the subject
is not a string; a blank string subject yields a single empty-string topic. -/
def specTopicsAmended (subject topics_str : PyVal) : List String :=
  let ts := gtSplitTopics topics_str
  if ts = [] then
    [match subject with
     | .str s => pyStrip s
     | _ => "Study"]
  else ts

/-- C4 counterexample: with a blank subject and an empty topics string the
code's topic list is `[""]`, not `["Study"]` as the claim states. -/
theorem topics_blank_subject_cex :
    gtTopics (.str "") (.str "") = [""] ∧
    specTopicsClaimed (.str "") (.str "") = ["Study"] ∧
    gtTopics (.str "") (.str "") ≠ specTopicsClaimed (.str "") (.str "") := by
  refine ⟨by decide, by decide, by decide⟩

/-- C4 (amended): the topics string is split on commas, trimmed, with empty
pieces dropped; an empty result falls back to the single trimmed subject,
and that topic is `"Study"` exactly when the subject is not a string. -/
theorem topics_parse_amended (subject topics_str : PyVal) :
    gtTopics subject topics_str = specTopicsAmended subject topics_str := by
  unfold gtTopics specTopicsAmended gtSubj
  cases subject <;> simp

/-- C6: for every plan type whose normalization is none of `"daily"`,
`"weekly"`, `"monthly"`, `generate_timetable` reaches the fallback branch
that references the undefined name `slots` and raises a `NameError`
instead of returning a timetable. -/
theorem fallback_plan_name_error (subject topics_str free_time plan_type : PyVal)
    (h : gtPlan plan_type ∉ (["daily", "weekly", "monthly"] : List String)) :
    generateTimetable subject topics_str free_time plan_type = .error .nameError := by
  simp only [List.mem_cons, List.mem_singleton, not_or] at h
  obtain ⟨h1, h2, h3⟩ := h
  simp [generateTimetable, h1, h2, h3]

/-- Witness for `fallback_plan_name_error` at plan type `"yearly"`. -/
theorem fallback_plan_name_error_witness :
    generateTimetable (.str "Math") (.str "A,B") (.str "2") (.str "yearly") =
      .error .nameError :=
  fallback_plan_name_error (.str "Math") (.str "A,B") (.str "2") (.str "yearly")
    (by decide)

/-- C7: for every input with plan type normalizing to `"monthly"`, the
result is a list of exactly four entries drawn only from the week-labelled
study entries (breaks dropped), the `w`-th of the first `min 4 n` labelled
`"Week w+1"`, padded by duplicating the last produced entry when fewer
than four study slots exist. -/
theorem monthly_plan_shape (subject topics_str free_time plan_type : PyVal)
    (hp : gtPlan plan_type = "monthly") :
    ∃ es : List PyVal,
      generateTimetable subject topics_str free_time plan_type = .ok (.list es) ∧
      es = monthlyBase (gtTopics subject topics_str) (gtSlots subject topics_str free_time) ++
        List.replicate
          (4 - (monthlyBase (gtTopics subject topics_str) (gtSlots subject topics_str free_time)).length)
          ((monthlyBase (gtTopics subject topics_str) (gtSlots subject topics_str free_time)).getLast?.getD .none) ∧
      (monthlyBase (gtTopics subject topics_str) (gtSlots subject topics_str free_time)).length =
        min 4 (gtTopics subject topics_str).length ∧
      es.length = 4 ∧
      (∀ e ∈ es, e ∈ monthlyBase (gtTopics subject topics_str) (gtSlots subject topics_str free_time)) ∧
      (∀ w, w < min 4 (gtTopics subject topics_str).length →
        ∃ t a, es.get? w = some (mkEntry ("Week " ++ natStr (w + 1)) t a)) := by
  have hn : 1 ≤ (gtTopics subject topics_str).length :=
    List.length_pos.mpr (gtTopics_ne_nil subject topics_str)
  have hsc : ((gtSlots subject topics_str free_time).filter fun s => !s.isBreak).length =
      (gtTopics subject topics_str).length := by
    simp only [gtSlots]
    exact rawSlotsGo_studyCount _ _ _ _ _
  have hmb : (monthlyBase (gtTopics subject topics_str) (gtSlots subject topics_str free_time)).length =
      min 4 (gtTopics subject topics_str).length := by
    rw [monthlyBase_length, hsc]
  have hmbne : monthlyBase (gtTopics subject topics_str) (gtSlots subject topics_str free_time) ≠ [] := by
    intro hc
    rw [hc] at hmb
    simp at hmb
    omega
  have hmble : (monthlyBase (gtTopics subject topics_str) (gtSlots subject topics_str free_time)).length ≤ 4 := by
    rw [hmb]; omega
  have hpad := padTo4_spec 4
    (monthlyBase (gtTopics subject topics_str) (gtSlots subject topics_str free_time))
    hmbne (by omega)
  have hne1 : ("monthly" : String) ≠ "daily" := by decide
  have hne2 : ("monthly" : String) ≠ "weekly" := by decide
  refine ⟨_, ?_, rfl, hmb, ?_, ?_, ?_⟩
  · simp only [generateTimetable, hp, hne1, hne2, if_false, if_true, hpad]
  · simp only [List.length_append, List.length_replicate]
    omega
  · intro e he
    rcases List.mem_append.mp he with h | h
    · exact h
    · have he2 := List.eq_of_mem_replicate h
      rw [he2, List.getLast?_eq_getLast _ hmbne, Option.getD_some]
      exact List.getLast_mem hmbne
  · intro w hw
    rw [← hmb] at hw
    rw [List.get?_append hw]
    exact monthlyBase_get? _ _ _ hw

/-! ## Claim theorems for the Text Table Parser and Grid Builder -/

/-- C2 counterexample: on the scenario string, the first entry's activity
is the cleaned text between the first time match and the second — which
includes the `"Day 2"` header line — so it is `"Math review Day 2"`, not
`"Math review"` as the claim states. -/
theorem text_parse_scenario_cex :
    parseTextToTable
        (.str "Day 1\n9:00-10:00\nMath review\n\nDay 2\n10:00-11:00\nPhysics") =
      some [mkEntry "Day 1" "9:00-10:00" "Math review Day 2",
            mkEntry "Day 2" "10:00-11:00" "Physics"] ∧
    mkEntry "Day 1" "9:00-10:00" "Math review Day 2" ≠
      mkEntry "Day 1" "9:00-10:00" "Math review" :=
  ⟨by decide, by decide⟩

/-- C2 (amended): the scenario string parses to exactly two entries with
periods `"Day 1"`/`"Day 2"` and times `"9:00-10:00"`/`"10:00-11:00"`, the
first activity being `"Math review Day 2"` (the text up to the next time
match, whitespace collapsed) and the second `"Physics"`. -/
theorem text_parse_scenario_amended :
    parseTextToTable
        (.str "Day 1\n9:00-10:00\nMath review\n\nDay 2\n10:00-11:00\nPhysics") =
      some [mkEntry "Day 1" "9:00-10:00" "Math review Day 2",
            mkEntry "Day 2" "10:00-11:00" "Physics"] := by
  decide

/-- C8: whenever the string source resolves to no entries (and no early
grid return), `build_weekly_grid` returns the fixed default grid: five
weekday columns, twelve bell-schedule rows, every day cell the empty
string — never null. -/
theorem grid_default_on_unparsed (s : String)
    (h : ∃ eo, bwgResolveStr s = Sum.inr eo ∧ noEntries eo = true) :
    buildWeeklyGrid (.str s) = .ok defaultGrid ∧
    specGridInvariant defaultGrid = true ∧
    (∃ rows, defaultGrid =
        .dict [("days", .list (weekDays.map .str)), ("rows", .list rows)] ∧
      weekDays.length = 5 ∧ rows.length = 12 ∧ rows ≠ [] ∧
      ∀ r ∈ rows, ∀ d ∈ weekDays, rowCell r d = some (.str "")) := by
  obtain ⟨eo, heo, hne⟩ := h
  refine ⟨?_, by decide, ⟨defaultTimes12.map emptyRow, by decide, by decide,
    by decide, by decide, by decide⟩⟩
  show buildWeeklyGrid (.str s) = .ok defaultGrid
  simp only [buildWeeklyGrid, bwgEntries, heo]
  cases eo with
  | none => rfl
  | some v =>
      simp only [noEntries, Bool.not_eq_true'] at hne
      simp [hne]

/-- Witness for `grid_default_on_unparsed` at the empty string. -/
theorem grid_default_on_unparsed_witness :
    buildWeeklyGrid (.str "") = .ok defaultGrid ∧
    specGridInvariant defaultGrid = true ∧
    (∃ rows, defaultGrid =
        .dict [("days", .list (weekDays.map .str)), ("rows", .list rows)] ∧
      weekDays.length = 5 ∧ rows.length = 12 ∧ rows ≠ [] ∧
      ∀ r ∈ rows, ∀ d ∈ weekDays, rowCell r d = some (.str "")) :=
  grid_default_on_unparsed "" ⟨Option.none, by decide, by decide⟩

/-- Witness for `monthly_plan_shape` at concrete inputs. -/
theorem monthly_plan_shape_witness :
    ∃ es : List PyVal,
      generateTimetable (.str "Math") (.str "Algebra,Geometry") (.str "2 hours")
          (.str "monthly") = .ok (.list es) ∧
      es = monthlyBase (gtTopics (.str "Math") (.str "Algebra,Geometry"))
            (gtSlots (.str "Math") (.str "Algebra,Geometry") (.str "2 hours")) ++
        List.replicate
          (4 - (monthlyBase (gtTopics (.str "Math") (.str "Algebra,Geometry"))
            (gtSlots (.str "Math") (.str "Algebra,Geometry") (.str "2 hours"))).length)
          ((monthlyBase (gtTopics (.str "Math") (.str "Algebra,Geometry"))
            (gtSlots (.str "Math") (.str "Algebra,Geometry") (.str "2 hours"))).getLast?.getD .none) ∧
      (monthlyBase (gtTopics (.str "Math") (.str "Algebra,Geometry"))
        (gtSlots (.str "Math") (.str "Algebra,Geometry") (.str "2 hours"))).length =
        min 4 (gtTopics (.str "Math") (.str "Algebra,Geometry")).length ∧
      es.length = 4 ∧
      (∀ e ∈ es, e ∈ monthlyBase (gtTopics (.str "Math") (.str "Algebra,Geometry"))
        (gtSlots (.str "Math") (.str "Algebra,Geometry") (.str "2 hours"))) ∧
      (∀ w, w < min 4 (gtTopics (.str "Math") (.str "Algebra,Geometry")).length →
        ∃ t a, es.get? w = some (mkEntry ("Week " ++ natStr (w + 1)) t a)) :=
  monthly_plan_shape (.str "Math") (.str "Algebra,Geometry") (.str "2 hours")
    (.str "monthly") (by decide)

/-! ## Grid invariant lemmas (C5) -/

theorem pyGet_isSome_iff (kvs : List (String × PyVal)) (k : String) :
    (pyGet kvs k).isSome ↔ k ∈ kvs.map Prod.fst := by
  induction kvs with
  | nil => simp [pyGet]
  | cons kv kvs ih =>
      obtain ⟨k', v⟩ := kv
      simp only [pyGet, List.map_cons, List.mem_cons]
      by_cases h : k' = k
      · simp [h]
      · simp only [if_neg h, ih]
        constructor
        · exact Or.inr
        · rintro (h2 | h2)
          · exact absurd h2.symm h
          · exact h2

theorem pyDictSet_keys_of_mem (kvs : List (String × PyVal)) (k : String) (v : PyVal)
    (h : k ∈ kvs.map Prod.fst) :
    (pyDictSet kvs k v).map Prod.fst = kvs.map Prod.fst := by
  induction kvs with
  | nil => simp at h
  | cons kv kvs ih =>
      obtain ⟨k', v'⟩ := kv
      by_cases hk : k' = k
      · simp [pyDictSet, hk]
      · simp only [List.map_cons, List.mem_cons] at h
        have hmem : k ∈ kvs.map Prod.fst := by
          rcases h with h | h
          · exact absurd h.symm hk
          · exact h
        simp [pyDictSet, hk, ih hmem]

theorem foldl_min_mem (rest : List (String × Nat)) :
    ∀ b : String × Nat,
      (rest.foldl (fun best dc => if dc.2 < best.2 then dc else best) b) ∈ b :: rest := by
  induction rest with
  | nil => intro b; simp
  | cons dc rest ih =>
      intro b
      simp only [List.foldl_cons]
      have h := ih (if dc.2 < b.2 then dc else b)
      by_cases hlt : dc.2 < b.2 <;> simp [hlt] at h ⊢ <;> tauto

theorem getD_mem_of_lt {α : Type} (l : List α) (i : Nat) (d : α) (h : i < l.length) :
    l.getD i d ∈ l := by
  induction l generalizing i with
  | nil => simp at h
  | cons x xs ih =>
      match i with
      | 0 => simp [List.getD]
      | i + 1 =>
          simp only [List.getD_cons_succ, List.mem_cons]
          exact Or.inr (ih i (by simpa using h))

theorem argminDay_mem (counters : List (String × Nat)) (h : counters ≠ []) :
    argminDay counters ∈ counters.map Prod.fst := by
  match counters with
  | [] => exact absurd rfl h
  | dc0 :: rest =>
      have := foldl_min_mem rest dc0
      simp only [argminDay]
      exact List.mem_map_of_mem Prod.fst this

theorem counterInc_keys (c : List (String × Nat)) (d : String) :
    (counterInc c d).map Prod.fst = c.map Prod.fst := by
  induction c with
  | nil => rfl
  | cons dc c ih =>
      by_cases h : dc.1 = d <;> simp [counterInc, h] at ih ⊢ <;> exact ih

theorem dayFromPeriod_mem (period : PyVal) (d : String)
    (h : dayFromPeriod period = .ok (some d)) : d ∈ weekDays := by
  unfold dayFromPeriod at h
  by_cases ht : pyTruthy period
  · simp only [ht, if_true] at h
    match period with
    | .str p =>
        simp only at h
        split at h
        · split at h
          · simp only [Except.ok.injEq] at h
            exact List.get?_mem h
          · simp only [Except.ok.injEq] at h
            exact List.mem_of_find?_eq_some h
        · simp only [Except.ok.injEq] at h
          exact List.mem_of_find?_eq_some h
    | .int n => simp at h
    | .bool b => simp at h
    | .none => simp at h
    | .list xs => simp at h
    | .dict kvs => simp at h
  · simp [ht] at h

theorem findRowIdx_lt (rows : List PyVal) (t : String) (i : Nat)
    (h : findRowIdx rows t = some i) : i < rows.length := by
  have := List.mem_of_find?_eq_some h
  simpa using this

theorem fillEntry_preserves (st : List PyVal × List (String × Nat)) (e : PyVal)
    (st' : List PyVal × List (String × Nat))
    (hrows : ∀ r ∈ st.1, rowShapeOK r)
    (hne : st.1 ≠ [])
    (hcnt : st.2.map Prod.fst = weekDays)
    (h : fillEntry st e = .ok st') :
    (∀ r ∈ st'.1, rowShapeOK r) ∧ st'.1 ≠ [] ∧ st'.2.map Prod.fst = weekDays := by
  match e with
  | .str _ | .int _ | .bool _ | .none | .list _ =>
      simp only [fillEntry, Except.ok.injEq] at h
      exact h ▸ ⟨hrows, hne, hcnt⟩
  | .dict kvs =>
      simp only [fillEntry] at h
      split at h
      · exact absurd h (by simp)
      · rename_i dayOpt hday
        -- the resolved day is one of the weekdays
        have hdmem : (dayOpt.getD (argminDay st.2)) ∈ weekDays := by
          match dayOpt with
          | some d => exact dayFromPeriod_mem _ _ hday
          | Option.none =>
              have hc : st.2 ≠ [] := by
                intro hc; rw [hc] at hcnt; simp [weekDays] at hcnt
              simpa [hcnt] using argminDay_mem st.2 hc
        split at h
        · exact absurd h (by simp)
        · rename_i ri hri
          -- the row index is in range
          have hrange : (ri.getD (counterGet st.2 (dayOpt.getD (argminDay st.2)) % st.1.length))
              < st.1.length := by
            match ri with
            | some i =>
                simp only [Option.getD_some]
                split at hri
                · split at hri
                  · simp only [Except.ok.injEq, Option.some.injEq] at hri
                    exact findRowIdx_lt _ _ _ (by rw [hri])
                  · exact absurd hri (by simp)
                · simp at hri
            | Option.none =>
                simp only [Option.getD_none]
                exact Nat.mod_lt _ (List.length_pos.mpr hne)
          split at h
          · rename_i rkvs hrk
            have hmem : PyVal.dict rkvs ∈ st.1 := by
              rw [← hrk]
              exact getD_mem_of_lt _ _ _ hrange
            obtain ⟨rkvs', heq, hkeys⟩ := hrows _ hmem
            have hrkeq : rkvs' = rkvs := by
              injection heq with h2
              exact h2.symm
            subst hrkeq
            split at h
            · exact absurd h (by simp)
            · rename_i newVal hnv
              simp only [Except.ok.injEq] at h
              subst h
              refine ⟨?_, ?_, by simpa [counterInc_keys] using hcnt⟩
              · intro r hr
                rcases List.mem_or_eq_of_mem_set hr with hmem2 | hset
                · exact hrows r hmem2
                · refine ⟨_, hset, ?_⟩
                  rw [pyDictSet_keys_of_mem _ _ _ ?_, hkeys]
                  rw [hkeys]
                  simp only [List.mem_cons]
                  exact Or.inr hdmem
              · simpa using hne
          · rename_i hnotdict
            -- the selected row is a member of st.1, hence a dict by `hrows`
            have hmem : st.1.getD (ri.getD
                (counterGet st.2 (dayOpt.getD (argminDay st.2)) % st.1.length)) (.dict []) ∈ st.1 :=
              getD_mem_of_lt _ _ _ hrange
            obtain ⟨rkvs', heq, _⟩ := hrows _ hmem
            exact absurd heq (hnotdict _)

theorem fillLoop_preserves (es : List PyVal) :
    ∀ st st', (∀ r ∈ st.1, rowShapeOK r) → st.1 ≠ [] →
      st.2.map Prod.fst = weekDays → fillLoop st es = .ok st' →
      (∀ r ∈ st'.1, rowShapeOK r) := by
  induction es with
  | nil =>
      intro st st' h1 _ _ h
      simp only [fillLoop, Except.ok.injEq] at h
      exact h ▸ h1
  | cons e es ih =>
      intro st st' h1 h2 h3 h
      simp only [fillLoop] at h
      split at h
      · exact absurd h (by simp)
      · rename_i st2 hst2
        obtain ⟨g1, g2, g3⟩ := fillEntry_preserves st e st2 h1 h2 h3 hst2
        exact ih st2 st' g1 g2 g3 h

theorem map_fst_pair {α β : Type} (l : List α) (f : α → β) :
    (l.map fun d => (d, f d)).map Prod.fst = l := by
  rw [List.map_map]
  have h : (Prod.fst ∘ fun d => (d, f d)) = id := funext fun d => rfl
  rw [h, List.map_id]

theorem gridInvariant_of_rows (rows : List PyVal)
    (h : ∀ r ∈ rows, rowShapeOK r) :
    specGridInvariant
      (.dict [("days", .list (weekDays.map .str)), ("rows", .list rows)]) = true := by
  have h1 : pyGet [("days", PyVal.list (weekDays.map PyVal.str)), ("rows", PyVal.list rows)]
      "days" = some (.list (weekDays.map PyVal.str)) := by simp [pyGet]
  have h2 : pyGet [("days", PyVal.list (weekDays.map PyVal.str)), ("rows", PyVal.list rows)]
      "rows" = some (.list rows) := by simp [pyGet]
  simp only [specGridInvariant, h1, h2]
  simp only [Bool.and_eq_true, List.all_eq_true]
  refine ⟨by decide, ?_⟩
  intro r hr
  obtain ⟨rkvs, heq, hkeys⟩ := h r hr
  subst heq
  simp only [Bool.and_eq_true]
  constructor
  · simp only [List.all_eq_true]
    intro d hd
    simp only [List.mem_map] at hd
    obtain ⟨dk, hdk, hdeq⟩ := hd
    subst hdeq
    simp only
    rw [Option.isSome_iff_exists]
    have : dk ∈ rkvs.map Prod.fst := by
      rw [hkeys]; exact List.mem_cons_of_mem _ hdk
    rw [← pyGet_isSome_iff] at this
    exact Option.isSome_iff_exists.mp this
  · have hlen : (rkvs.filter fun kv =>
        (weekDays.map PyVal.str).contains (.str kv.1)).length =
        ((rkvs.map Prod.fst).filter fun k =>
          (weekDays.map PyVal.str).contains (.str k)).length := by
      rw [List.filter_map, List.length_map]
      rfl
    rw [beq_iff_eq, hlen, hkeys]
    decide

/-- C5 counterexample: the pass-through branch returns a malformed grid
unchanged; a rows/days dict whose single row lacks the configured day
violates the WeeklyGrid invariant. -/
theorem grid_passthrough_cex :
    buildWeeklyGrid (.dict [("rows", .list [.dict []]), ("days", .list [.str "Monday"])]) =
      .ok (.dict [("days", .list [.str "Monday"]), ("rows", .list [.dict []])]) ∧
    specGridInvariant
      (.dict [("days", .list [.str "Monday"]), ("rows", .list [.dict []])]) = false :=
  ⟨by decide, by decide⟩

/-- C5 (amended): every grid built by `build_weekly_grid` on the
non-pass-through branches, and every grid returned by `generate_timetable`
with plan type `"weekly"`, satisfies the WeeklyGrid invariant; the
pass-through branches return the input's days and rows unchanged and
preserve the invariant only if the input already satisfied it. -/
theorem grid_invariant_holds :
    (∀ (source g : PyVal) (eo : Option PyVal), bwgEntries source = .inr eo →
        buildWeeklyGrid source = .ok g → specGridInvariant g = true) ∧
    (∀ subject topics_str free_time plan_type : PyVal, gtPlan plan_type = "weekly" →
        ∃ g, generateTimetable subject topics_str free_time plan_type = .ok g ∧
          specGridInvariant g = true) := by
  constructor
  · intro source g eo heo hok
    simp only [buildWeeklyGrid, heo] at hok
    split at hok
    · -- entries truthy: the constructed grid
      split at hok
      · exact absurd hok (by simp)
      · rename_i es hes
        split at hok
        · exact absurd hok (by simp)
        · rename_i times0 ht0
          split at hok
          · exact absurd hok (by simp)
          · rename_i st hst
            simp only [Except.ok.injEq] at hok
            subst hok
            set times := if times0.length < 5 then default5Times else times0 with htimes
            apply gridInvariant_of_rows
            apply fillLoop_preserves es (times.map emptyRow, weekDays.map fun d => (d, 0))
            · intro r hr
              simp only [List.mem_map] at hr
              obtain ⟨t, _, hteq⟩ := hr
              exact ⟨_, hteq.symm, by simp only [emptyRow, List.map_cons, map_fst_pair]⟩
            · simp only [ne_eq, List.map_eq_nil]
              rw [htimes]
              split
              · decide
              · rename_i hge
                intro hnil
                exact hge (by simp [hnil])
            · exact map_fst_pair _ _
            · exact hst
    · simp only [Except.ok.injEq] at hok
      subst hok
      decide
  · intro subject topics_str free_time plan_type hp
    have hne1 : ("weekly" : String) ≠ "daily" := by decide
    refine ⟨.dict [("days", .list (weekDays.map .str)),
      ("rows", .list (weeklyRows (gtTopics subject topics_str)
        (gtSlots subject topics_str free_time)))], ?_, ?_⟩
    · simp only [generateTimetable, hp, hne1, if_false, if_true]
    apply gridInvariant_of_rows
    intro r hr
    simp only [weeklyRows, List.mem_map] at hr
    obtain ⟨s, _, hseq⟩ := hr
    exact ⟨_, hseq.symm, by simp only [List.map_cons, map_fst_pair]⟩

/-- Witness for `grid_invariant_holds`: the non-pass-through empty-string
source and a concrete weekly generation both yield invariant-satisfying
grids. -/
theorem grid_invariant_holds_witness :
    specGridInvariant defaultGrid = true ∧
    (∃ g, generateTimetable (.str "Math") (.str "Algebra,Geometry") (.str "2 hours")
        (.str "weekly") = .ok g ∧ specGridInvariant g = true) :=
  ⟨grid_invariant_holds.1 (.str "") defaultGrid Option.none (by decide) (by decide),
   grid_invariant_holds.2 (.str "Math") (.str "Algebra,Geometry") (.str "2 hours")
     (.str "weekly") (by decide)⟩

/-! ## Triplet converter lemmas (C10) -/

theorem isStr_of_ok_truthy (v : PyVal) (h1 : isStrOrNotTruthy v = true)
    (h2 : pyTruthy v = true) : ∃ s, v = .str s := by
  cases v with
  | str s => exact ⟨s, rfl⟩
  | int n => simp [isStrOrNotTruthy, h2] at h1
  | bool b => simp [isStrOrNotTruthy, h2] at h1
  | none => simp [isStrOrNotTruthy, h2] at h1
  | list xs => simp [isStrOrNotTruthy, h2] at h1
  | dict kvs => simp [isStrOrNotTruthy, h2] at h1

theorem entryStep_ok (acc : List PyTriplet) (e : PyVal) (he : entryOk e = true)
    (hacc : ∀ t ∈ acc, t.topic ≠ "") :
    ∃ acc2, entryStep acc e = .ok acc2 ∧ ∀ t ∈ acc2, t.topic ≠ "" := by
  match e with
  | .str _ | .int _ | .bool _ | .none | .list _ => exact ⟨acc, rfl, hacc⟩
  | .dict kvs =>
      simp only [entryOk, Bool.and_eq_true] at he
      obtain ⟨hper, htop⟩ := he
      have hstep : ∃ p, (if pyTruthy (pyGetD kvs "period" (.str "")) then
          match pyGetD kvs "period" (.str "") with
          | .str p => Except.ok p
          | _ => Except.error PyErr.typeError
        else Except.ok "" : Except PyErr String) = .ok p := by
        by_cases hp : pyTruthy (pyGetD kvs "period" (.str "")) = true
        · obtain ⟨s, hs⟩ := isStr_of_ok_truthy _ hper hp
          rw [hs] at hp ⊢
          exact ⟨s, by simp [hp]⟩
        · exact ⟨"", by simp [hp]⟩
      obtain ⟨p, hpeq⟩ := hstep
      simp only [entryStep, hpeq]
      by_cases ht : pyTruthy (topicOf kvs) = true
      · obtain ⟨s, hs⟩ := isStr_of_ok_truthy _ htop ht
        rw [hs] at ht ⊢
        by_cases hstrip : pyStrip s ≠ ""
        · refine ⟨acc ++ [⟨pyStrip s, .str (tripletDay p), pyGetD kvs "time" (.str "")⟩],
            by simp [ht, hstrip], ?_⟩
          intro t hmem
          rcases List.mem_append.mp hmem with hmem | hmem
          · exact hacc t hmem
          · simp only [List.mem_singleton] at hmem
            rw [hmem]
            exact hstrip
        · exact ⟨acc, by simp [ht, hstrip], hacc⟩
      · exact ⟨acc, by simp [ht], hacc⟩

theorem entryLoop_ok (es : List PyVal) :
    ∀ acc, es.all entryOk = true → (∀ t ∈ acc, t.topic ≠ "") →
      ∃ ts, entryLoop acc es = .ok ts ∧ ∀ t ∈ ts, t.topic ≠ "" := by
  induction es with
  | nil => intro acc _ hacc; exact ⟨acc, rfl, hacc⟩
  | cons e es ih =>
      intro acc hall hacc
      simp only [List.all_cons, Bool.and_eq_true] at hall
      obtain ⟨acc2, hstep, hacc2⟩ := entryStep_ok acc e hall.1 hacc
      obtain ⟨ts, hloop, hts⟩ := ih acc2 hall.2 hacc2
      exact ⟨ts, by simp only [entryLoop, hstep, hloop], hts⟩

theorem entryTriplets_ok (es : List PyVal) (h : es.all entryOk = true) :
    ∃ ts, entryTriplets es = .ok ts ∧ ∀ t ∈ ts, t.topic ≠ "" :=
  entryLoop_ok es [] h (by simp)

theorem gridDayLoop_ok (rkvs : List (String × PyVal)) (time : PyVal) (ds : List PyVal) :
    ∀ acc, (∀ d ∈ ds, isStrOrNotTruthy (cellVal rkvs d) = true) →
      (∀ t ∈ acc, t.topic ≠ "") →
      ∃ acc2, gridDayLoop rkvs time acc ds = .ok acc2 ∧ ∀ t ∈ acc2, t.topic ≠ "" := by
  induction ds with
  | nil => intro acc _ hacc; exact ⟨acc, rfl, hacc⟩
  | cons d ds ih =>
      intro acc hall hacc
      have hd := hall d (by simp)
      have hrest : ∀ d2 ∈ ds, isStrOrNotTruthy (cellVal rkvs d2) = true :=
        fun d2 h2 => hall d2 (by simp [h2])
      by_cases ht : pyTruthy (cellVal rkvs d) = true
      · obtain ⟨s, hs⟩ := isStr_of_ok_truthy _ hd ht
        rw [hs] at ht
        by_cases hstrip : pyStrip s ≠ ""
        · obtain ⟨acc2, hloop, hacc2⟩ := ih (acc ++ [⟨pyStrip s, d, time⟩]) hrest (by
            intro t hmem
            rcases List.mem_append.mp hmem with hmem | hmem
            · exact hacc t hmem
            · simp only [List.mem_singleton] at hmem
              rw [hmem]
              exact hstrip)
          refine ⟨acc2, ?_, hacc2⟩
          rw [show gridDayLoop rkvs time acc (d :: ds) =
            gridDayLoop rkvs time (acc ++ [⟨pyStrip s, d, time⟩]) ds from by
              simp [gridDayLoop, hs, ht, hstrip]]
          exact hloop
        · obtain ⟨acc2, hloop, hacc2⟩ := ih acc hrest hacc
          refine ⟨acc2, ?_, hacc2⟩
          rw [show gridDayLoop rkvs time acc (d :: ds) = gridDayLoop rkvs time acc ds from by
            simp [gridDayLoop, hs, ht, hstrip]]
          exact hloop
      · obtain ⟨acc2, hloop, hacc2⟩ := ih acc hrest hacc
        refine ⟨acc2, ?_, hacc2⟩
        rw [show gridDayLoop rkvs time acc (d :: ds) = gridDayLoop rkvs time acc ds from by
          simp [gridDayLoop, ht]]
        exact hloop

theorem gridRowLoop_ok (daysV : PyVal) (rows : List PyVal) :
    ∀ acc, (∀ row ∈ rows, rowOkB daysV row = true) → (∀ t ∈ acc, t.topic ≠ "") →
      ∃ ts, gridRowLoop daysV acc rows = .ok ts ∧ ∀ t ∈ ts, t.topic ≠ "" := by
  induction rows with
  | nil => intro acc _ hacc; exact ⟨acc, rfl, hacc⟩
  | cons row rows ih =>
      intro acc hall hacc
      have hrow := hall row (by simp)
      have hrest : ∀ r ∈ rows, rowOkB daysV r = true := fun r h2 => hall r (by simp [h2])
      match row with
      | .dict rkvs =>
          simp only [rowOkB] at hrow
          match hit : toIterable daysV with
          | .error er => rw [hit] at hrow; simp at hrow
          | .ok ds =>
              rw [hit] at hrow
              simp only [List.all_eq_true] at hrow
              obtain ⟨acc2, hday, hacc2⟩ :=
                gridDayLoop_ok rkvs (pyGetD rkvs "time" (.str "")) ds acc hrow hacc
              obtain ⟨ts, hloop, hts⟩ := ih acc2 hrest hacc2
              exact ⟨ts, by simp only [gridRowLoop, hit, hday, hloop], hts⟩
      | .str _ => simp [rowOkB] at hrow
      | .int _ => simp [rowOkB] at hrow
      | .bool _ => simp [rowOkB] at hrow
      | .none => simp [rowOkB] at hrow
      | .list _ => simp [rowOkB] at hrow

theorem gridTriplets_ok (kvs : List (String × PyVal)) (h : gridOk kvs = true) :
    ∃ ts, gridTriplets kvs = .ok ts ∧ ∀ t ∈ ts, t.topic ≠ "" := by
  simp only [gridOk] at h
  match hit : toIterable (pyGetD kvs "rows" .none) with
  | .error er => rw [hit] at h; simp at h
  | .ok rows =>
      rw [hit] at h
      simp only [List.all_eq_true] at h
      obtain ⟨ts, hloop, hts⟩ := gridRowLoop_ok (pyGetD kvs "days" .none) rows [] h (by simp)
      exact ⟨ts, by simp only [gridTriplets, hit, hloop], hts⟩

theorem entryOk_mkEntry (p t a : String) : entryOk (mkEntry p t a) = true := by
  by_cases ha : a = "" <;>
    simp [mkEntry, entryOk, topicOf, pyGetD, pyGet, pyTruthy, isStrOrNotTruthy, ha]

theorem textRow_shape (s : List Char) (st en endI : Nat) (e : PyVal)
    (h : textRow s st en endI = some e) : ∃ p t a, e = mkEntry p t a := by
  simp only [textRow] at h
  split at h
  · exact absurd h (by simp)
  · simp only [Option.some.injEq] at h
    exact ⟨_, _, _, h.symm⟩

theorem parseText_entries_ok (v : PyVal) (es : List PyVal)
    (h : parseTextToTable v = some es) : es.all entryOk = true := by
  match v with
  | .str s0 =>
      simp only [parseTextToTable] at h
      split at h
      · -- blank-line fallback branch: every produced entry is `mkEntry`
        split at h
        · exact absurd h (by simp)
        · simp only [Option.some.injEq] at h
          subst h
          simp only [List.all_eq_true]
          intro e he
          obtain ⟨b, _, hb⟩ := List.mem_filterMap.mp he
          split at hb
          · exact absurd hb (by simp)
          · simp only [Option.some.injEq] at hb
            rw [← hb]
            exact entryOk_mkEntry _ _ _
      · -- time-match branch: every produced entry comes from `textRow`
        split at h
        · exact absurd h (by simp)
        · simp only [Option.some.injEq] at h
          subst h
          simp only [List.all_eq_true]
          intro e he
          obtain ⟨i, _, hi⟩ := List.mem_filterMap.mp he
          split at hi
          · exact absurd hi (by simp)
          · obtain ⟨p, t, a, heq⟩ := textRow_shape _ _ _ _ _ hi
            rw [heq]
            exact entryOk_mkEntry _ _ _
  | .int _ => simp [parseTextToTable] at h
  | .bool _ => simp [parseTextToTable] at h
  | .none => simp [parseTextToTable] at h
  | .list _ => simp [parseTextToTable] at h
  | .dict _ => simp [parseTextToTable] at h

/-- C10 counterexample: an entry list whose `activity` is the integer `5`
makes `convert_to_triplets` raise `AttributeError` at `5 .strip()`, so it
does not return a list at all. -/
theorem triplets_raise_cex :
    convertToTriplets (.list [.dict [("activity", .int 5)]]) = .error .attributeError ∧
    ∀ ts, convertToTriplets (.list [.dict [("activity", .int 5)]]) ≠ .ok ts := by
  have h : convertToTriplets (.list [.dict [("activity", .int 5)]]) =
      .error .attributeError := by decide
  exact ⟨h, fun ts hc => by rw [h] at hc; exact Except.noConfusion hc⟩

theorem ttBranch_ok (tt : PyVal) (h : entriesOkV tt = true) :
    ∃ ts, (if pyTruthy tt = true then
             match toIterable tt with
             | Except.error e => Except.error e
             | Except.ok es => entryTriplets es
           else Except.ok [] : Except PyErr (List PyTriplet)) = .ok ts ∧
      ∀ t ∈ ts, t.topic ≠ "" := by
  by_cases httr : pyTruthy tt = true
  · simp only [entriesOkV, httr, Bool.not_true, Bool.false_or] at h
    cases hit : toIterable tt with
    | error er => rw [hit] at h; simp at h
    | ok es =>
        rw [hit] at h
        simp only [httr, if_true, hit]
        exact entryTriplets_ok es h
  · rw [Bool.not_eq_true] at httr
    simp only [httr, Bool.false_eq_true, if_false]
    exact ⟨[], rfl, by simp⟩

theorem textBranch_ok (s : String) :
    ∃ ts, (match parseTextToTable (.str s) with
           | some es => if pyTruthy (.list es) = true then entryTriplets es else Except.ok []
           | Option.none => Except.ok [] : Except PyErr (List PyTriplet)) = .ok ts ∧
      ∀ t ∈ ts, t.topic ≠ "" := by
  cases hpt : parseTextToTable (.str s) with
  | none => exact ⟨[], rfl, by simp⟩
  | some es =>
      by_cases he : pyTruthy (PyVal.list es) = true
      · simp only [he, if_true]
        exact entryTriplets_ok es (parseText_entries_ok _ _ hpt)
      · rw [Bool.not_eq_true] at he
        simp only [he, Bool.false_eq_true, if_false]
        exact ⟨[], rfl, by simp⟩

theorem dictBranch_ok (kvs : List (String × PyVal))
    (hk : (if (pyGet kvs "rows").isSome && (pyGet kvs "days").isSome then gridOk kvs
           else match pyGet kvs "timetable" with
                | some tt => entriesOkV tt
                | Option.none => true) = true) :
    ∃ ts, (if (pyGet kvs "rows").isSome && (pyGet kvs "days").isSome then gridTriplets kvs
           else match pyGet kvs "timetable" with
                | some tt =>
                    if pyTruthy tt = true then
                      match toIterable tt with
                      | Except.error e => Except.error e
                      | Except.ok es => entryTriplets es
                    else Except.ok []
                | Option.none => Except.ok []) = .ok ts ∧ ∀ t ∈ ts, t.topic ≠ "" := by
  by_cases hrd : ((pyGet kvs "rows").isSome && (pyGet kvs "days").isSome) = true
  · simp only [hrd, if_true] at hk ⊢
    exact gridTriplets_ok kvs hk
  · rw [Bool.not_eq_true] at hrd
    simp only [hrd, Bool.false_eq_true, if_false] at hk ⊢
    cases htt : pyGet kvs "timetable" with
    | none => exact ⟨[], rfl, by simp⟩
    | some tt =>
        rw [htt] at hk
        exact ttBranch_ok tt hk

/-- C10 (amended): on every well-formed source — grids whose reachable
cells are strings (or falsy), entry lists and `timetable` lists whose
period and selected topic fields are strings (or falsy), and strings —
`convert_to_triplets` returns a list (never raises, never `None`), and
every triplet in the result has a non-empty topic. -/
theorem triplets_wf_list (source : PyVal) (h : convertWF source = true) :
    ∃ ts, convertToTriplets source = .ok ts ∧ ∀ t ∈ ts, t.topic ≠ "" := by
  match source with
  | .int _ => exact ⟨[], rfl, by simp⟩
  | .bool _ => exact ⟨[], rfl, by simp⟩
  | .none => exact ⟨[], rfl, by simp⟩
  | .list xs =>
      simp only [convertWF] at h
      simp only [convertToTriplets]
      by_cases hx : pyTruthy (PyVal.list xs) = true
      · simp only [hx, if_true]
        exact entryTriplets_ok xs h
      · rw [Bool.not_eq_true] at hx
        simp only [hx, Bool.false_eq_true, if_false]
        exact ⟨[], rfl, by simp⟩
  | .dict kvs =>
      simp only [convertWF] at h
      simp only [convertToTriplets]
      exact dictBranch_ok kvs h
  | .str s =>
      simp only [convertWF] at h
      simp only [convertToTriplets]
      cases hp : tryParseJson s with
      | dict pkvs =>
          rw [hp] at h
          by_cases hrd : ((pyGet pkvs "rows").isSome && (pyGet pkvs "days").isSome) = true
          · simp only [hrd, if_true] at h ⊢
            exact gridTriplets_ok pkvs h
          · rw [Bool.not_eq_true] at hrd
            simp only [hrd, Bool.false_eq_true, if_false] at h ⊢
            cases htt : pyGet pkvs "timetable" with
            | none => exact textBranch_ok s
            | some tt =>
                rw [htt] at h
                exact ttBranch_ok tt h
      | list xs =>
          rw [hp] at h
          by_cases hx : pyTruthy (PyVal.list xs) = true
          · simp only [hx, if_true]
            exact entryTriplets_ok xs h
          · rw [Bool.not_eq_true] at hx
            simp only [hx, Bool.false_eq_true, if_false]
            exact ⟨[], rfl, by simp⟩
      | str s2 => exact textBranch_ok s
      | int n => exact textBranch_ok s
      | bool b => exact textBranch_ok s
      | none => exact textBranch_ok s

/-- Witness for `triplets_wf_list` at a concrete well-formed entry list. -/
theorem triplets_wf_list_witness :
    convertWF (.list [.dict [("activity", .str " A "), ("period", .str "Day 2")]]) = true ∧
    ∃ ts, convertToTriplets
        (.list [.dict [("activity", .str " A "), ("period", .str "Day 2")]]) = .ok ts ∧
      ∀ t ∈ ts, t.topic ≠ "" :=
  ⟨by decide, triplets_wf_list _ (by decide)⟩

/-! ## `try_parse_json` failure behaviour (C9) -/

theorem tpjLoop_fail (s : String) (st : Nat)
    (h : ∀ e, st + 1 ≤ e → e ≤ s.data.length → jsonLoads (pySlice s st e) = Option.none) :
    ∀ E, E ≤ s.data.length → tpjLoop s st E = PyVal.none := by
  intro E
  induction E with
  | zero => intro _; rfl
  | succ e ih =>
      intro hE
      simp only [tpjLoop]
      split
      · rfl
      · rename_i hst
        rw [h (e + 1) (by omega) hE]
        exact ih (by omega)

/-- C9: whenever every parse attempt `try_parse_json` makes fails — the
direct `json.loads` of the whole text, the single key-targeted slice
when the `timetable` machinery produces one, and each suffix-truncated
slice `s[start:end]` attempted by the bracket fallback loop — the
function returns the null result (`PyVal.none`, modelling Python's
`None`).  The hypothesis `tpjAttemptsFail` enumerates exactly those
attempts and no others.  The function is total on string inputs,
modelling that it never raises to its caller. -/
theorem tryParseJson_none_when_no_parse (s : String)
    (h : tpjAttemptsFail s = true) : tryParseJson s = PyVal.none := by
  simp only [tpjAttemptsFail, Bool.and_eq_true] at h
  obtain ⟨⟨h0b, hkb⟩, hlb⟩ := h
  have h0 : jsonLoads s = Option.none := by
    cases hjl : jsonLoads s
    · rfl
    · rw [hjl] at h0b
      exact Bool.noConfusion h0b
  have hloop : ∀ st, tpjStart s.data = some st →
      ∀ e, st + 1 ≤ e → e ≤ s.data.length → jsonLoads (pySlice s st e) = Option.none := by
    intro st hst e he1 he2
    rw [hst] at hlb
    have hall : ((List.range (s.data.length + 1)).all fun x =>
        decide (x ≤ st) || (jsonLoads (pySlice s st x)).isNone) = true := hlb
    have hx := List.all_eq_true.mp hall e (List.mem_range.mpr (by omega))
    rw [decide_eq_false (by omega : ¬e ≤ st), Bool.false_or] at hx
    cases hjl : jsonLoads (pySlice s st e)
    · rfl
    · rw [hjl] at hx
      exact Bool.noConfusion hx
  simp only [tryParseJson, h0]
  split
  · rename_i v hv
    exfalso
    split at hv
    · exact Option.noConfusion hv
    · rename_i ki heq1
      split at hv
      · exact Option.noConfusion hv
      · rename_i st heq2
        split at hv
        · exact Option.noConfusion hv
        · rename_i off heq3
          have hvs : tpjViaKeySlice s = some (st, st + off) := by
            simp only [tpjViaKeySlice, tpjKeyIdx, heq1, heq2, heq3]
          rw [hvs] at hkb
          have hJ : (jsonLoads (pySlice s st (st + off))).isNone = true := hkb
          rw [hv] at hJ
          exact Bool.noConfusion hJ
  · split
    · rfl
    · rename_i i heq1 heq2
      exact tpjLoop_fail s i (hloop i (by simp only [tpjStart, heq1, heq2])) _ (le_refl _)
    · rename_i j heq1 heq2
      exact tpjLoop_fail s j (hloop j (by simp only [tpjStart, heq1, heq2])) _ (le_refl _)
    · rename_i i j heq1 heq2
      exact tpjLoop_fail s (min i j)
        (hloop (min i j) (by simp only [tpjStart, heq1, heq2])) _ (le_refl _)

/-- Witness for `tryParseJson_none_when_no_parse` at `"x 1 y"`:
unparseable prose containing a digit.  The only attempt the function
makes on it is the direct parse (no bracket, no `timetable` key), that
attempt fails, and the function returns the null result — even though
the slice `"1"` of the input would parse in isolation. -/
theorem tryParseJson_none_witness :
    tpjAttemptsFail "x 1 y" = true ∧ tryParseJson "x 1 y" = PyVal.none :=
  ⟨by decide, tryParseJson_none_when_no_parse "x 1 y" (by decide)⟩

/-! ## JSON serializer/parser round trip (C3) -/

/-- Proof-side decimal digits (well-founded form of `natDigits`). -/
def natDigitsW (n : Nat) : List Char :=
  if h : n < 10 then [Char.ofNat (48 + n % 10)]
  else natDigitsW (n / 10) ++ [Char.ofNat (48 + n % 10)]
decreasing_by exact Nat.div_lt_self (by omega) (by omega)

theorem natDigitsGo_eq_W :
    ∀ fuel n acc, n < 10 ^ (fuel + 1) → natDigitsGo (fuel + 1) n acc = natDigitsW n ++ acc := by
  intro fuel
  induction fuel with
  | zero =>
      intro n acc h
      have hn : n < 10 := by simpa using h
      simp [natDigitsGo, natDigitsW, hn]
  | succ fuel ih =>
      intro n acc h
      by_cases hn : n < 10
      · simp [natDigitsGo, natDigitsW, hn]
      · have hdiv : n / 10 < 10 ^ (fuel + 1) := by
          rw [Nat.div_lt_iff_lt_mul (by omega)]
          calc n < 10 ^ (fuel + 2) := h
          _ = 10 ^ (fuel + 1) * 10 := by ring
        rw [show natDigitsGo (fuel + 2) n acc =
          natDigitsGo (fuel + 1) (n / 10) (Char.ofNat (48 + n % 10) :: acc) from by
            simp [natDigitsGo, hn]]
        rw [ih _ _ hdiv]
        rw [show natDigitsW n = natDigitsW (n / 10) ++ [Char.ofNat (48 + n % 10)] from by
          rw [natDigitsW]; simp [hn]]
        simp

theorem natDigits_eq_W (n : Nat) : natDigits n = natDigitsW n := by
  have h : n < 10 ^ (n + 1) := by
    calc n < 2 ^ n := Nat.lt_two_pow n
    _ ≤ 10 ^ n := Nat.pow_le_pow_left (by omega) n
    _ ≤ 10 ^ (n + 1) := Nat.pow_le_pow_right (by omega) (by omega)
  have h2 := natDigitsGo_eq_W n n [] h
  simpa [natDigits] using h2

theorem digitChar_isDigit (m : Nat) (h : m < 10) : (Char.ofNat (48 + m)).isDigit = true := by
  interval_cases m <;> decide

theorem digitChar_toNat (m : Nat) (h : m < 10) : (Char.ofNat (48 + m)).toNat = 48 + m := by
  interval_cases m <;> decide

theorem natDigitsW_all_digits (n : Nat) : ∀ c ∈ natDigitsW n, c.isDigit = true := by
  induction n using Nat.strong_induction_on with
  | _ n ih =>
      intro c hc
      by_cases h : n < 10
      · rw [natDigitsW, dif_pos h] at hc
        simp only [List.mem_singleton] at hc
        subst hc
        exact digitChar_isDigit _ (Nat.mod_lt _ (by omega))
      · rw [natDigitsW, dif_neg h] at hc
        rcases List.mem_append.mp hc with hc | hc
        · exact ih (n / 10) (Nat.div_lt_self (by omega) (by omega)) c hc
        · simp only [List.mem_singleton] at hc
          subst hc
          exact digitChar_isDigit _ (Nat.mod_lt _ (by omega))

theorem natDigitsW_cons (n : Nat) :
    ∃ c cs, natDigitsW n = c :: cs ∧ c.isDigit = true ∧ (1 ≤ n → c ≠ '0') := by
  induction n using Nat.strong_induction_on with
  | _ n ih =>
      by_cases h : n < 10
      · refine ⟨Char.ofNat (48 + n % 10), [], by rw [natDigitsW, dif_pos h],
          digitChar_isDigit _ (Nat.mod_lt _ (by omega)), ?_⟩
        intro hn hc
        have hmod : n % 10 = n := Nat.mod_eq_of_lt h
        rw [hmod] at hc
        have : (Char.ofNat (48 + n)).toNat = 48 + n := digitChar_toNat n h
        rw [hc] at this
        simp at this
        omega
      · obtain ⟨c, cs, heq, hdig, hpos⟩ := ih (n / 10) (Nat.div_lt_self (by omega) (by omega))
        refine ⟨c, cs ++ [Char.ofNat (48 + n % 10)], ?_, hdig, ?_⟩
        · rw [natDigitsW, dif_neg h, heq]
          simp
        · intro _
          exact hpos (by omega)

theorem digitsVal_append_singleton (ds : List Char) (c : Char) :
    digitsVal (ds ++ [c]) = digitsVal ds * 10 + (c.toNat - 48) := by
  simp [digitsVal, List.foldl_append]

theorem digitsVal_natDigitsW (n : Nat) : digitsVal (natDigitsW n) = n := by
  induction n using Nat.strong_induction_on with
  | _ n ih =>
      by_cases h : n < 10
      · have hmod : n % 10 = n := Nat.mod_eq_of_lt h
        rw [natDigitsW, dif_pos h, hmod]
        simp only [digitsVal, List.foldl_cons, List.foldl_nil]
        rw [digitChar_toNat n h]
        omega
      · rw [natDigitsW, dif_neg h, digitsVal_append_singleton,
          ih (n / 10) (Nat.div_lt_self (by omega) (by omega)),
          digitChar_toNat (n % 10) (Nat.mod_lt _ (by omega))]
        omega

theorem takeWhile_dropWhile_append (p : Char → Bool) (ds rest : List Char)
    (hds : ∀ c ∈ ds, p c = true)
    (hrest : ∀ c, rest.head? = some c → p c = false) :
    (ds ++ rest).takeWhile p = ds ∧ (ds ++ rest).dropWhile p = rest := by
  induction ds with
  | nil =>
      simp only [List.nil_append]
      match rest with
      | [] => simp
      | c :: rest2 =>
          have := hrest c rfl
          simp [List.takeWhile_cons, List.dropWhile_cons, this]
  | cons d ds ih =>
      have hd := hds d (by simp)
      obtain ⟨h1, h2⟩ := ih (fun c hc => hds c (by simp [hc]))
      simp [List.takeWhile_cons, List.dropWhile_cons, hd, h1, h2]

theorem digit_ne (c x : Char) (h : c.isDigit = true) (hx : x.isDigit = false) : c ≠ x := by
  intro he
  subst he
  rw [h] at hx
  exact Bool.noConfusion hx

theorem digit_not_jsonWS (c : Char) (h : c.isDigit = true) : jsonWS c = false := by
  cases hw : jsonWS c
  · rfl
  · exfalso
    simp only [jsonWS, Bool.or_eq_true, decide_eq_true_eq] at hw
    rcases hw with ((h1 | h1) | h1) | h1 <;> subst h1 <;> exact absurd h (by decide)

theorem parseJNat_ser (n : Nat) (rest : List Char)
    (hrest : ∀ c, rest.head? = some c → c.isDigit = false) :
    parseJNat (natDigits n ++ rest) = some (n, rest) := by
  rw [natDigits_eq_W]
  match hn : n with
  | 0 => simp [natDigitsW, parseJNat]
  | m + 1 =>
      obtain ⟨c, cs, heq, hdig, hpos⟩ := natDigitsW_cons (m + 1)
      have hne0 : c ≠ '0' := hpos (by omega)
      have hcs : ∀ x ∈ cs, x.isDigit = true := fun x hx =>
        natDigitsW_all_digits (m + 1) x (by rw [heq]; simp [hx])
      obtain ⟨htake, hdrop⟩ := takeWhile_dropWhile_append Char.isDigit cs rest hcs hrest
      rw [heq]
      simp only [List.cons_append, parseJNat, if_neg hne0, hdig, if_pos]
      rw [htake, hdrop]
      have : digitsVal (c :: cs) = m + 1 := by
        rw [← heq, digitsVal_natDigitsW]
      rw [this]

theorem parseJInt_ser (n : Int) (rest : List Char)
    (hrest : ∀ c, rest.head? = some c → c.isDigit = false) :
    parseJInt (serIntL n ++ rest) = some (n, rest) := by
  match n with
  | .ofNat m =>
      have h := parseJNat_ser m rest hrest
      rw [natDigits_eq_W] at h
      obtain ⟨c, cs, heq, hdig, _⟩ := natDigitsW_cons m
      have hcne : c ≠ '-' := digit_ne c '-' hdig (by decide)
      simp only [serIntL, natDigits_eq_W, heq] at h ⊢
      simp only [List.cons_append, parseJInt]
      split
      · rename_i heq2
        exact absurd (List.cons.inj heq2.symm).1.symm hcne
      · simp only [List.cons_append] at h
        rw [h]
        rfl
  | .negSucc m =>
      have h := parseJNat_ser (m + 1) rest hrest
      simp only [serIntL, List.cons_append, parseJInt, h]
      rfl

theorem hexVal_hexDigit (m : Nat) (h : m < 16) : hexVal (hexDigit m) = some m := by
  interval_cases m <;> decide

theorem psb_quote (X : List Char) : parseStringBody ('"' :: X) = some ([], X) := by
  rw [parseStringBody.eq_def]
  simp

theorem psb_esc_quote (X : List Char) :
    parseStringBody ('\\' :: '"' :: X) =
      (parseStringBody X).map fun p => ('"' :: p.1, p.2) := by
  rw [parseStringBody.eq_def]
  simp

theorem psb_esc_back (X : List Char) :
    parseStringBody ('\\' :: '\\' :: X) =
      (parseStringBody X).map fun p => ('\\' :: p.1, p.2) := by
  rw [parseStringBody.eq_def]
  simp

theorem psb_esc_u (h1 h2 h3 h4 : Char) (X : List Char) :
    parseStringBody ('\\' :: 'u' :: h1 :: h2 :: h3 :: h4 :: X) =
      (match hexVal h1, hexVal h2, hexVal h3, hexVal h4 with
       | some a, some b, some c2, some d =>
           (parseStringBody X).map fun p =>
             (Char.ofNat (((a * 16 + b) * 16 + c2) * 16 + d) :: p.1, p.2)
       | _, _, _, _ => Option.none) := by
  rw [parseStringBody.eq_def]
  simp

theorem psb_plain (c : Char) (X : List Char) (h1 : c ≠ '"') (h2 : c ≠ '\\')
    (h3 : ¬ c.toNat < 32) :
    parseStringBody (c :: X) = (parseStringBody X).map fun p => (c :: p.1, p.2) := by
  rw [parseStringBody.eq_def]
  simp [h1, h2, h3]

theorem parseStringBody_ser (l : List Char) (rest : List Char) :
    parseStringBody ((l.map escChar).join ++ '"' :: rest) = some (l, rest) := by
  induction l with
  | nil => simp only [List.map_nil, List.join_nil, List.nil_append, psb_quote]
  | cons c l ih =>
      simp only [List.map_cons, List.join_cons, List.append_assoc]
      by_cases h1 : c = '"'
      · subst h1
        rw [show escChar '"' = ['\\', '"'] from rfl]
        simp only [List.cons_append, List.nil_append, psb_esc_quote, ih]
        rfl
      · by_cases h2 : c = '\\'
        · subst h2
          rw [show escChar '\\' = ['\\', '\\'] from rfl]
          simp only [List.cons_append, List.nil_append, psb_esc_back, ih]
          rfl
        · by_cases h3 : c.toNat < 32
          · have e1 : escChar c =
                ['\\', 'u', '0', '0', hexDigit (c.toNat / 16), hexDigit (c.toNat % 16)] := by
              simp [escChar, h1, h2, h3]
            rw [e1]
            have hv1 : hexVal (hexDigit (c.toNat / 16)) = some (c.toNat / 16) :=
              hexVal_hexDigit _ (by omega)
            have hv2 : hexVal (hexDigit (c.toNat % 16)) = some (c.toNat % 16) :=
              hexVal_hexDigit _ (Nat.mod_lt _ (by omega))
            have hcode : ((0 * 16 + 0) * 16 + c.toNat / 16) * 16 + c.toNat % 16 = c.toNat := by
              omega
            simp only [List.cons_append, List.nil_append, psb_esc_u,
              show hexVal '0' = some 0 from rfl, hv1, hv2, ih, hcode, Char.ofNat_toNat]
            rfl
          · have e1 : escChar c = [c] := by simp [escChar, h1, h2, h3]
            rw [e1]
            simp only [List.cons_append, List.nil_append,
              psb_plain c _ h1 h2 h3, ih]
            rfl

theorem skipWs_cons (c : Char) (cs : List Char) (h : jsonWS c = false) :
    skipWs (c :: cs) = c :: cs := by
  simp [skipWs, List.dropWhile_cons, h]

theorem serVal_cons (d : PyVal) :
    ∃ c cs, serVal d = c :: cs ∧ jsonWS c = false ∧ c ≠ ']' ∧ c ≠ '}' ∧ c ≠ ',' := by
  match d with
  | .str s => exact ⟨'"', _, rfl, by decide, by decide, by decide, by decide⟩
  | .int n =>
      match n with
      | .ofNat m =>
          obtain ⟨c, cs, heq, hdig, _⟩ := natDigitsW_cons m
          refine ⟨c, cs, ?_, digit_not_jsonWS c hdig, digit_ne c _ hdig (by decide),
            digit_ne c _ hdig (by decide), digit_ne c _ hdig (by decide)⟩
          show serIntL (.ofNat m) = c :: cs
          rw [show serIntL (.ofNat m) = natDigits m from rfl, natDigits_eq_W, heq]
      | .negSucc m => exact ⟨'-', _, rfl, by decide, by decide, by decide, by decide⟩
  | .bool true => exact ⟨'t', _, rfl, by decide, by decide, by decide, by decide⟩
  | .bool false => exact ⟨'f', _, rfl, by decide, by decide, by decide, by decide⟩
  | .none => exact ⟨'n', _, rfl, by decide, by decide, by decide, by decide⟩
  | .list xs => exact ⟨'[', _, rfl, by decide, by decide, by decide, by decide⟩
  | .dict kvs => exact ⟨'{', _, rfl, by decide, by decide, by decide, by decide⟩

theorem skipWs_serVal (d : PyVal) (rest : List Char) :
    skipWs (serVal d ++ rest) = serVal d ++ rest := by
  obtain ⟨c, cs, heq, hws, _, _, _⟩ := serVal_cons d
  rw [heq, List.cons_append, skipWs_cons _ _ hws]

theorem serVal_length_pos (d : PyVal) : 1 ≤ (serVal d).length := by
  obtain ⟨c, cs, heq, _⟩ := serVal_cons d
  rw [heq]
  simp

/-- The digit-guard needed after a serialized value: only for integers the
following text must not begin with a digit. -/
def numTailOk (d : PyVal) (rest : List Char) : Prop :=
  match d with
  | .int _ => ∀ c, rest.head? = some c → c.isDigit = false
  | _ => True

theorem numTailOk_cons (d : PyVal) (c : Char) (rest : List Char)
    (h : c.isDigit = false) : numTailOk d (c :: rest) := by
  unfold numTailOk
  match d with
  | .int _ =>
      intro x hx
      simp only [List.head?_cons, Option.some.injEq] at hx
      exact hx ▸ h
  | .str _ | .bool _ | .none | .list _ | .dict _ => trivial

theorem pvFuelL_le (xs : List PyVal)
    (ih : ∀ x ∈ xs, pvFuel x ≤ 2 * (serVal x).length) :
    pvFuelL xs ≤ 2 * (serItems xs).length + 2 := by
  match xs with
  | [] => simp [pvFuelL, serItems]
  | [x] =>
      have := ih x (by simp)
      simp only [pvFuelL, serItems]
      omega
  | x :: y :: xs =>
      have h1 := ih x (by simp)
      have h2 := pvFuelL_le (y :: xs) (fun z hz => ih z (by simp [List.mem_cons] at hz ⊢; tauto))
      show 1 + pvFuel x + pvFuelL (y :: xs) ≤ 2 * (serVal x ++ ',' :: serItems (y :: xs)).length + 2
      simp only [List.length_append, List.length_cons] at h2 ⊢
      omega

theorem serStrL_length (s : String) : 2 ≤ (serStrL s).length := by
  simp [serStrL]

theorem pvFuelD_le (kvs : List (String × PyVal))
    (ih : ∀ kv ∈ kvs, pvFuel kv.2 ≤ 2 * (serVal kv.2).length) :
    pvFuelD kvs ≤ 2 * (serMembers kvs).length + 2 := by
  match kvs with
  | [] => simp [pvFuelD, serMembers]
  | [(k, v)] =>
      have h1 : pvFuel v ≤ 2 * (serVal v).length := ih (k, v) (by simp)
      have h2 := serStrL_length k
      show 1 + pvFuel v + 1 ≤ 2 * (serStrL k ++ ':' :: serVal v).length + 2
      simp only [List.length_append, List.length_cons] at h1 h2 ⊢
      omega
  | (k, v) :: kv2 :: kvs =>
      have h1 : pvFuel v ≤ 2 * (serVal v).length := ih (k, v) (by simp)
      have h2 := pvFuelD_le (kv2 :: kvs)
        (fun z hz => ih z (by simp [List.mem_cons] at hz ⊢; tauto))
      have h3 := serStrL_length k
      show 1 + pvFuel v + pvFuelD (kv2 :: kvs) ≤
        2 * (serStrL k ++ ':' :: serVal v ++ ',' :: serMembers (kv2 :: kvs)).length + 2
      simp only [List.length_append, List.length_cons] at h2 h3 ⊢
      omega

theorem pvFuel_le (d : PyVal) : pvFuel d ≤ 2 * (serVal d).length := by
  induction d using PyVal.indOn with
  | hstr s =>
      have := serStrL_length s
      show 1 ≤ 2 * (serStrL s).length
      omega
  | hint n =>
      have := serVal_length_pos (.int n)
      show 1 ≤ 2 * (serVal (.int n)).length
      omega
  | hbool b =>
      have := serVal_length_pos (.bool b)
      show 1 ≤ 2 * (serVal (.bool b)).length
      omega
  | hnone =>
      have := serVal_length_pos .none
      show 1 ≤ 2 * (serVal .none).length
      omega
  | hlist xs ih =>
      have h := pvFuelL_le xs ih
      show 1 + pvFuelL xs ≤ 2 * ('[' :: serItems xs ++ [']']).length
      simp only [List.cons_append, List.length_cons, List.length_append,
        List.length_singleton]
      omega
  | hdict kvs ih =>
      have h := pvFuelD_le kvs ih
      show 1 + pvFuelD kvs ≤ 2 * ('{' :: serMembers kvs ++ ['}']).length
      simp only [List.cons_append, List.length_cons, List.length_append,
        List.length_singleton]
      omega

theorem parseF_quote (f : Nat) (X : List Char) :
    parseF (f + 1) .value ('"' :: X) =
      (parseStringBody X).map fun p => (.str ⟨p.1⟩, p.2) := by
  rw [parseF.eq_def]
  simp

theorem parseF_lbrace (f : Nat) (X : List Char) :
    parseF (f + 1) .value ('{' :: X) =
      (match skipWs X with
       | '}' :: r => some (.dict [], r)
       | cs2 => parseF f (.members []) cs2) := by
  rw [parseF.eq_def]
  simp

theorem parseF_lbrack (f : Nat) (X : List Char) :
    parseF (f + 1) .value ('[' :: X) =
      (match skipWs X with
       | ']' :: r => some (.list [], r)
       | cs2 => parseF f (.items []) cs2) := by
  rw [parseF.eq_def]
  simp

theorem parseF_true (f : Nat) (X : List Char) :
    parseF (f + 1) .value ('t' :: 'r' :: 'u' :: 'e' :: X) = some (.bool true, X) := by
  rw [parseF.eq_def]
  simp [listStartsWith]

theorem parseF_false (f : Nat) (X : List Char) :
    parseF (f + 1) .value ('f' :: 'a' :: 'l' :: 's' :: 'e' :: X) = some (.bool false, X) := by
  rw [parseF.eq_def]
  simp [listStartsWith]

theorem parseF_null (f : Nat) (X : List Char) :
    parseF (f + 1) .value ('n' :: 'u' :: 'l' :: 'l' :: X) = some (.none, X) := by
  rw [parseF.eq_def]
  simp [listStartsWith]

theorem parseF_num (f : Nat) (c : Char) (X : List Char)
    (h1 : c ≠ '{') (h2 : c ≠ '[') (h3 : c ≠ '"') (h4 : c ≠ 't') (h5 : c ≠ 'f')
    (h6 : c ≠ 'n') :
    parseF (f + 1) .value (c :: X) = (parseJInt (c :: X)).map fun p => (.int p.1, p.2) := by
  rw [parseF.eq_def]
  simp [h1, h2, h3, h4, h5, h6]

theorem parseF_items_step (f : Nat) (acc : List PyVal) (cs : List Char) :
    parseF (f + 1) (.items acc) cs = (parseF f .value cs).bind (itemsCont f acc) := by
  have hstep : parseF (f + 1) (.items acc) cs =
      (match parseF f .value cs with
       | Option.none => Option.none
       | some (v, cs1) =>
           match skipWs cs1 with
           | ',' :: cs2 => parseF f (.items (acc ++ [v])) (skipWs cs2)
           | ']' :: cs2 => some (.list (acc ++ [v]), cs2)
           | _ => Option.none) := by
    rw [parseF.eq_def]
  rw [hstep]
  cases h : parseF f JMode.value cs with
  | none => rfl
  | some p =>
      obtain ⟨v, cs1⟩ := p
      rfl

theorem parseF_members_step (f : Nat) (acc : List (String × PyVal)) (kd : List Char)
    (Z : List Char) :
    parseF (f + 1) (.members acc) ('"' :: ((kd.map escChar).join ++ '"' :: ':' :: Z)) =
      (parseF f .value (skipWs Z)).bind (membersVCont f acc kd) := by
  rw [parseF.eq_def]
  have hsb := parseStringBody_ser kd (':' :: Z)
  simp only [hsb, skipWs_cons _ _ (show jsonWS ':' = false from by decide)]
  cases hv : parseF f JMode.value (skipWs Z) with
  | none => rfl
  | some p =>
      obtain ⟨v, cs4⟩ := p
      rfl

theorem skipWs_serItems (y : PyVal) (xs : List PyVal) (rest : List Char) :
    skipWs (serItems (y :: xs) ++ rest) = serItems (y :: xs) ++ rest := by
  match xs with
  | [] => exact skipWs_serVal y rest
  | z :: xs =>
      have harr : serItems (y :: z :: xs) ++ rest =
          serVal y ++ (',' :: serItems (z :: xs) ++ rest) := by
        show (serVal y ++ ',' :: serItems (z :: xs)) ++ rest = _
        rw [List.append_assoc]
      rw [harr, skipWs_serVal]

theorem serItems_cons_ne_rbrack (y : PyVal) (xs : List PyVal) (tail : List Char) :
    ∃ c t, serItems (y :: xs) ++ tail = c :: t ∧ c ≠ ']' := by
  obtain ⟨c, cs, heq, _, hc, _, _⟩ := serVal_cons y
  match xs with
  | [] => exact ⟨c, cs ++ tail, by show serVal y ++ tail = _; rw [heq]; rfl, hc⟩
  | z :: xs =>
      refine ⟨c, (cs ++ ',' :: serItems (z :: xs)) ++ tail, ?_, hc⟩
      show (serVal y ++ ',' :: serItems (z :: xs)) ++ tail = _
      rw [heq]
      simp

theorem contains_append_cons_self (l1 l2 : List String) (k : String) :
    (l1 ++ k :: l2).contains k = true := by
  induction l1 with
  | nil => simp
  | cons a l1 ih => simp [ih]

theorem keysFresh_split (l1 l2 : List String) (k : String)
    (h : keysFresh (l1 ++ k :: l2) = true) : k ∉ l1 := by
  induction l1 with
  | nil => simp
  | cons a l1 ih =>
      simp only [List.cons_append, keysFresh, Bool.and_eq_true, Bool.not_eq_true',
        List.append_eq] at h
      obtain ⟨hna, hrest⟩ := h
      simp only [List.mem_cons]
      rintro (hk | hk)
      · subst hk
        rw [contains_append_cons_self] at hna
        exact Bool.noConfusion hna
      · exact ih hrest hk

theorem parseF_items_ser (xs : List PyVal)
    (ihx : ∀ x ∈ xs, ∀ fuel rest, pyWF x = true → pvFuel x ≤ fuel →
      numTailOk x rest → parseF fuel .value (serVal x ++ rest) = some (x, rest)) :
    ∀ acc f rest, pyWFL xs = true → pvFuelL xs ≤ f → xs ≠ [] →
      parseF f (.items acc) (serItems xs ++ ']' :: rest) = some (.list (acc ++ xs), rest) := by
  induction xs with
  | nil => intro acc f rest _ _ hne; exact absurd rfl hne
  | cons x xs ih =>
      intro acc f rest hwf hfuel _
      simp only [pyWFL, Bool.and_eq_true] at hwf
      have hfx : 1 + pvFuel x + pvFuelL xs ≤ f := hfuel
      have hpos : 1 ≤ f := by omega
      obtain ⟨g, rfl⟩ : ∃ g, f = g + 1 := ⟨f - 1, by omega⟩
      match xs with
      | [] =>
          have hx := ihx x (by simp) g (']' :: rest) hwf.1
            (by simp only [pvFuelL] at hfx; omega)
            (numTailOk_cons x ']' rest (by decide))
          rw [parseF_items_step,
            show serItems [x] ++ ']' :: rest = serVal x ++ ']' :: rest from rfl, hx,
            Option.some_bind]
          simp only [itemsCont]
          rw [skipWs_cons _ _ (show jsonWS ']' = false from by decide)]
          rfl
      | y :: xs2 =>
          have harr : serItems (x :: y :: xs2) ++ ']' :: rest =
              serVal x ++ ',' :: (serItems (y :: xs2) ++ ']' :: rest) := by
            show (serVal x ++ ',' :: serItems (y :: xs2)) ++ ']' :: rest = _
            simp
          have hx := ihx x (by simp) g (',' :: (serItems (y :: xs2) ++ ']' :: rest)) hwf.1
            (by simp only [pvFuelL] at hfx ⊢; omega)
            (numTailOk_cons x ',' _ (by decide))
          rw [parseF_items_step, harr, hx, Option.some_bind]
          simp only [itemsCont]
          rw [skipWs_cons _ _ (show jsonWS ',' = false from by decide)]
          show parseF g (JMode.items (acc ++ [x]))
              (skipWs (serItems (y :: xs2) ++ ']' :: rest)) =
            some (PyVal.list (acc ++ x :: y :: xs2), rest)
          rw [skipWs_serItems]
          have hrec := ih (fun z hz => ihx z (by simp [hz])) (acc ++ [x]) g rest hwf.2
            (by simp only [pvFuelL] at hfx ⊢; omega) (by simp)
          rw [hrec]
          simp

theorem skipWs_serMembers (kv : String × PyVal) (kvs : List (String × PyVal))
    (rest : List Char) :
    skipWs (serMembers (kv :: kvs) ++ rest) = serMembers (kv :: kvs) ++ rest := by
  obtain ⟨k, v⟩ := kv
  have hq : jsonWS '"' = false := by decide
  match kvs with
  | [] =>
      have harr : serMembers [(k, v)] ++ rest =
          '"' :: (((k.data.map escChar).join ++ ['"']) ++ (':' :: serVal v) ++ rest) := by
        show (serStrL k ++ ':' :: serVal v) ++ rest = _
        rw [show serStrL k = '"' :: ((k.data.map escChar).join ++ ['"']) from rfl]
        simp
      rw [harr, skipWs_cons _ _ hq]
  | kv2 :: kvs =>
      have harr : serMembers ((k, v) :: kv2 :: kvs) ++ rest =
          '"' :: (((k.data.map escChar).join ++ ['"']) ++
            (':' :: serVal v ++ ',' :: serMembers (kv2 :: kvs)) ++ rest) := by
        show (serStrL k ++ ':' :: serVal v ++ ',' :: serMembers (kv2 :: kvs)) ++ rest = _
        rw [show serStrL k = '"' :: ((k.data.map escChar).join ++ ['"']) from rfl]
        simp
      rw [harr, skipWs_cons _ _ hq]

theorem parseF_members_ser (kvs : List (String × PyVal))
    (ihx : ∀ kv ∈ kvs, ∀ fuel rest, pyWF (Prod.snd kv) = true → pvFuel kv.2 ≤ fuel →
      numTailOk kv.2 rest → parseF fuel .value (serVal kv.2 ++ rest) = some (kv.2, rest)) :
    ∀ acc f rest, pyWFD kvs = true →
      keysFresh ((acc ++ kvs).map Prod.fst) = true → pvFuelD kvs ≤ f → kvs ≠ [] →
      parseF f (.members acc) (serMembers kvs ++ '}' :: rest) =
        some (.dict (acc ++ kvs), rest) := by
  induction kvs with
  | nil => intro acc f rest _ _ _ hne; exact absurd rfl hne
  | cons kv kvs ih =>
      intro acc f rest hwf hfresh hfuel _
      obtain ⟨k, v⟩ := kv
      simp only [pyWFD, Bool.and_eq_true] at hwf
      have hfx : 1 + pvFuel v + pvFuelD kvs ≤ f := hfuel
      obtain ⟨g, rfl⟩ : ∃ g, f = g + 1 := ⟨f - 1, by omega⟩
      have hknotin : k ∉ acc.map Prod.fst := by
        apply keysFresh_split (acc.map Prod.fst) (kvs.map Prod.fst) k
        simpa using hfresh
      have hset : pyDictSet acc k v = acc ++ [(k, v)] := by
        have h2 : ∀ l : List (String × PyVal), k ∉ l.map Prod.fst →
            pyDictSet l k v = l ++ [(k, v)] := by
          intro l
          induction l with
          | nil => intro _; rfl
          | cons a l ihl =>
              intro hmem
              simp only [List.map_cons, List.mem_cons] at hmem
              push_neg at hmem
              have hne : ¬a.1 = k := fun he => hmem.1 he.symm
              simp [pyDictSet, hne, ihl hmem.2]
        exact h2 acc hknotin
      match kvs with
      | [] =>
          have harr : serMembers [(k, v)] ++ '}' :: rest =
              '"' :: ((k.data.map escChar).join ++ '"' :: ':' :: (serVal v ++ '}' :: rest)) := by
            show (serStrL k ++ ':' :: serVal v) ++ '}' :: rest = _
            rw [show serStrL k = '"' :: ((k.data.map escChar).join ++ ['"']) from rfl]
            simp
          have hv : parseF g JMode.value (serVal v ++ '}' :: rest) = some (v, '}' :: rest) :=
            ihx (k, v) (by simp) g ('}' :: rest) hwf.1
              (by show pvFuel v ≤ g; simp only [pvFuelD] at hfx; omega)
              (numTailOk_cons v '}' rest (by decide))
          rw [harr, parseF_members_step, skipWs_serVal, hv, Option.some_bind]
          simp only [membersVCont]
          rw [skipWs_cons _ _ (show jsonWS (Char.ofNat 125) = false from by decide)]
          show some (PyVal.dict (pyDictSet acc ⟨k.data⟩ v), rest) =
            some (PyVal.dict (acc ++ [(k, v)]), rest)
          rw [show (⟨k.data⟩ : String) = k from rfl, hset]
      | kv2 :: kvs2 =>
          have harr : serMembers ((k, v) :: kv2 :: kvs2) ++ '}' :: rest =
              '"' :: ((k.data.map escChar).join ++ '"' :: ':' ::
                (serVal v ++ ',' :: (serMembers (kv2 :: kvs2) ++ '}' :: rest))) := by
            show (serStrL k ++ ':' :: serVal v ++ ',' :: serMembers (kv2 :: kvs2)) ++
              '}' :: rest = _
            rw [show serStrL k = '"' :: ((k.data.map escChar).join ++ ['"']) from rfl]
            simp
          have hv : parseF g JMode.value
              (serVal v ++ ',' :: (serMembers (kv2 :: kvs2) ++ '}' :: rest)) =
              some (v, ',' :: (serMembers (kv2 :: kvs2) ++ '}' :: rest)) :=
            ihx (k, v) (by simp) g
              (',' :: (serMembers (kv2 :: kvs2) ++ '}' :: rest)) hwf.1
              (by show pvFuel v ≤ g; simp only [pvFuelD] at hfx; omega)
              (numTailOk_cons v ',' _ (by decide))
          rw [harr, parseF_members_step, skipWs_serVal, hv, Option.some_bind]
          simp only [membersVCont]
          rw [skipWs_cons _ _ (show jsonWS ',' = false from by decide)]
          show parseF g (JMode.members (pyDictSet acc ⟨k.data⟩ v))
              (skipWs (serMembers (kv2 :: kvs2) ++ '}' :: rest)) =
            some (PyVal.dict (acc ++ (k, v) :: kv2 :: kvs2), rest)
          rw [skipWs_serMembers, show (⟨k.data⟩ : String) = k from rfl, hset]
          have hrec := ih (fun z hz => ihx z (by simp [hz])) (acc ++ [(k, v)]) g rest hwf.2
            (by
              have he : (acc ++ [(k, v)]) ++ kv2 :: kvs2 = acc ++ (k, v) :: kv2 :: kvs2 := by
                simp
              rw [he]
              exact hfresh)
            (by simp only [pvFuelD] at hfx ⊢; omega) (by simp)
          rw [hrec]
          simp

theorem parseF_ser (d : PyVal) :
    ∀ fuel rest, pyWF d = true → pvFuel d ≤ fuel → numTailOk d rest →
      parseF fuel .value (serVal d ++ rest) = some (d, rest) := by
  induction d using PyVal.indOn with
  | hstr s =>
      intro fuel rest _ hfuel _
      obtain ⟨g, rfl⟩ : ∃ g, fuel = g + 1 := ⟨fuel - 1, by
        simp only [pvFuel] at hfuel; omega⟩
      have harr : serVal (.str s) ++ rest =
          '"' :: ((s.data.map escChar).join ++ '"' :: rest) := by
        show ('"' :: ((s.data.map escChar).join ++ ['"'])) ++ rest = _
        simp
      rw [harr, parseF_quote, parseStringBody_ser]
      rfl
  | hint n =>
      intro fuel rest _ hfuel hnum
      obtain ⟨g, rfl⟩ : ∃ g, fuel = g + 1 := ⟨fuel - 1, by
        simp only [pvFuel] at hfuel; omega⟩
      have hJ : parseJInt (serIntL n ++ rest) = some (n, rest) := parseJInt_ser n rest hnum
      match n with
      | .ofNat m =>
          obtain ⟨c, cs, heq0, hdig, _⟩ := natDigitsW_cons m
          have heq : serIntL (.ofNat m) = c :: cs := by
            rw [show serIntL (.ofNat m) = natDigits m from rfl, natDigits_eq_W, heq0]
          have harr : serVal (.int (.ofNat m)) ++ rest = c :: (cs ++ rest) := by
            show serIntL (.ofNat m) ++ rest = _
            rw [heq]
            rfl
          rw [harr, parseF_num g c _ (digit_ne c _ hdig (by decide))
            (digit_ne c _ hdig (by decide)) (digit_ne c _ hdig (by decide))
            (digit_ne c _ hdig (by decide)) (digit_ne c _ hdig (by decide))
            (digit_ne c _ hdig (by decide))]
          rw [show c :: (cs ++ rest) = serIntL (.ofNat m) ++ rest from by rw [heq]; rfl, hJ]
          rfl
      | .negSucc m =>
          have harr : serVal (.int (.negSucc m)) ++ rest =
              '-' :: (natDigits (m + 1) ++ rest) := rfl
          rw [harr, parseF_num g '-' _ (by decide) (by decide) (by decide) (by decide)
            (by decide) (by decide)]
          rw [show '-' :: (natDigits (m + 1) ++ rest) = serIntL (.negSucc m) ++ rest from rfl,
            hJ]
          rfl
  | hbool b =>
      intro fuel rest _ hfuel _
      obtain ⟨g, rfl⟩ : ∃ g, fuel = g + 1 := ⟨fuel - 1, by
        simp only [pvFuel] at hfuel; omega⟩
      cases b
      · exact parseF_false g rest
      · exact parseF_true g rest
  | hnone =>
      intro fuel rest _ hfuel _
      obtain ⟨g, rfl⟩ : ∃ g, fuel = g + 1 := ⟨fuel - 1, by
        simp only [pvFuel] at hfuel; omega⟩
      exact parseF_null g rest
  | hlist xs ih =>
      intro fuel rest hwf hfuel _
      obtain ⟨g, rfl⟩ : ∃ g, fuel = g + 1 := ⟨fuel - 1, by
        simp only [pvFuel] at hfuel; omega⟩
      have harr : serVal (.list xs) ++ rest = '[' :: (serItems xs ++ ']' :: rest) := by
        show ('[' :: (serItems xs ++ [']'])) ++ rest = _
        simp
      rw [harr, parseF_lbrack]
      match xs with
      | [] =>
          rw [show serItems [] ++ ']' :: rest = ']' :: rest from rfl]
          rw [show skipWs (']' :: rest) = ']' :: rest from skipWs_cons _ _ (by decide)]
          rfl
      | y :: xs2 =>
          rw [skipWs_serItems]
          obtain ⟨c, t, hct, hcne⟩ := serItems_cons_ne_rbrack y xs2 (']' :: rest)
          rw [hct]
          split
          · rename_i r heq2
            exact absurd (List.cons.inj heq2).1 hcne
          · rw [← hct]
            have := parseF_items_ser (y :: xs2) (fun x hx => ih x hx) [] g rest
              (by exact hwf) (by simp only [pvFuel] at hfuel; omega) (by simp)
            rw [this]
            simp
  | hdict kvs ih =>
      intro fuel rest hwf hfuel _
      obtain ⟨g, rfl⟩ : ∃ g, fuel = g + 1 := ⟨fuel - 1, by
        simp only [pvFuel] at hfuel; omega⟩
      have hwf2 : keysFresh (kvs.map Prod.fst) = true ∧ pyWFD kvs = true := by
        have : pyWF (.dict kvs) = (keysFresh (kvs.map Prod.fst) && pyWFD kvs) := rfl
        rw [this] at hwf
        exact Bool.and_eq_true_iff.mp hwf
      have harr : serVal (.dict kvs) ++ rest = '{' :: (serMembers kvs ++ '}' :: rest) := by
        show ('{' :: (serMembers kvs ++ ['}'])) ++ rest = _
        simp
      rw [harr, parseF_lbrace]
      match kvs with
      | [] =>
          rw [show serMembers [] ++ '}' :: rest = '}' :: rest from rfl]
          rw [show skipWs ('}' :: rest) = '}' :: rest from skipWs_cons _ _ (by decide)]
          rfl
      | kv :: kvs2 =>
          rw [skipWs_serMembers]
          obtain ⟨k, v⟩ := kv
          have hq : serMembers ((k, v) :: kvs2) ++ '}' :: rest =
              '"' :: (((k.data.map escChar).join ++ ['"']) ++
                (match kvs2 with
                 | [] => ':' :: serVal v
                 | _ :: _ => ':' :: serVal v ++ ',' :: serMembers kvs2) ++ '}' :: rest) := by
            match kvs2 with
            | [] =>
                show (serStrL k ++ ':' :: serVal v) ++ '}' :: rest = _
                rw [show serStrL k = '"' :: ((k.data.map escChar).join ++ ['"']) from rfl]
                simp
            | kv2 :: kvs3 =>
                show (serStrL k ++ ':' :: serVal v ++ ',' :: serMembers (kv2 :: kvs3)) ++
                  '}' :: rest = _
                rw [show serStrL k = '"' :: ((k.data.map escChar).join ++ ['"']) from rfl]
                simp
          rw [hq]
          split
          · rename_i r heq2
            exact absurd (List.cons.inj heq2).1 (by decide)
          · rw [← hq]
            have := parseF_members_ser ((k, v) :: kvs2) (fun z hz => ih z hz) [] g rest
              hwf2.2 (by simpa using hwf2.1)
              (by simp only [pvFuel] at hfuel; omega) (by simp)
            rw [this]
            simp

theorem jsonLoads_ser (d : PyVal) (u : List Char) (hwf : pyWF d = true)
    (hnum : numTailOk d u) :
    jsonLoads ⟨serVal d ++ u⟩ = if u.all jsonWS then some d else Option.none := by
  have hfuel : pvFuel d ≤ 2 * (serVal d ++ u).length + 4 := by
    have h1 := pvFuel_le d
    have h2 : (serVal d ++ u).length = (serVal d).length + u.length := List.length_append _ _
    omega
  have hp := parseF_ser d (2 * (serVal d ++ u).length + 4) u hwf hfuel hnum
  simp only [jsonLoads]
  rw [skipWs_serVal, hp]

theorem slice_decomp (P R : List Char) (n : Nat) (h : P.length ≤ n) :
    ((P ++ R).take n).drop P.length = R.take (n - P.length) := by
  rw [List.take_append_eq_append_take, List.take_all_of_le h, List.drop_left]

theorem tpjLoop_ser (d : PyVal) (P t : List Char)
    (hwf : pyWF d = true) (hnt : ∀ u : List Char, numTailOk d u) :
    ∀ E, P.length + (serVal d).length ≤ E →
      tpjLoop ⟨P ++ serVal d ++ t⟩ P.length E = d := by
  intro E
  induction E with
  | zero =>
      intro hE
      have := serVal_length_pos d
      omega
  | succ e ih =>
      intro hE
      have hL := serVal_length_pos d
      simp only [tpjLoop]
      rw [if_neg (by omega : ¬e + 1 ≤ P.length)]
      have hslice : pySlice ⟨P ++ serVal d ++ t⟩ P.length (e + 1) =
          ⟨serVal d ++ t.take (e + 1 - P.length - (serVal d).length)⟩ := by
        simp only [pySlice]
        rw [List.append_assoc]
        rw [slice_decomp _ _ _ (by omega : P.length ≤ e + 1)]
        rw [List.take_append_eq_append_take,
          List.take_all_of_le (by omega : (serVal d).length ≤ e + 1 - P.length)]
      rw [hslice, jsonLoads_ser d _ hwf (hnt _)]
      by_cases ht : (t.take (e + 1 - P.length - (serVal d).length)).all jsonWS
      · rw [if_pos ht]
      · rw [if_neg ht]
        have he2 : P.length + (serVal d).length ≤ e := by
          rcases Nat.lt_or_ge e (P.length + (serVal d).length) with hlt | hge
          · exfalso
            have h0 : e + 1 - P.length - (serVal d).length = 0 := by omega
            rw [h0] at ht
            simp at ht
          · exact hge
        exact ih he2

theorem pyFindAux_cons_eq (x : Char) (cs pat : List Char) (i : Nat) :
    pyFindAux (x :: cs) pat i =
      if listStartsWith (x :: cs) pat then some i else pyFindAux cs pat (i + 1) := by
  rw [pyFindAux.eq_def]

theorem pyFindAux_nil (pat : List Char) (i : Nat) :
    pyFindAux [] pat i = if listStartsWith [] pat then some i else Option.none := by
  rw [pyFindAux.eq_def]

theorem pyFindAux_ge (pat : List Char) : ∀ (cs : List Char) (i j : Nat),
    pyFindAux cs pat i = some j → i ≤ j := by
  intro cs
  induction cs with
  | nil =>
      intro i j h
      rw [pyFindAux_nil] at h
      split at h
      · have := Option.some.inj h
        omega
      · exact Option.noConfusion h
  | cons x cs ih =>
      intro i j h
      rw [pyFindAux_cons_eq] at h
      split at h
      · have := Option.some.inj h
        omega
      · have := ih (i + 1) j h
        omega

theorem listStartsWith_single_false (x c : Char) (cs : List Char) (hx : ¬x = c) :
    listStartsWith (x :: cs) [c] = false := by
  simp [listStartsWith, hx]

theorem pyFindAux_skip (c : Char) (P : List Char) (hP : ∀ x ∈ P, ¬x = c) :
    ∀ (R : List Char) (i : Nat),
      pyFindAux (P ++ R) [c] i = pyFindAux R [c] (i + P.length) := by
  induction P with
  | nil => intro R i; simp
  | cons a P ihp =>
      intro R i
      have ha : ¬a = c := hP a (by simp)
      have hstep : pyFindAux ((a :: P) ++ R) [c] i = pyFindAux (P ++ R) [c] (i + 1) := by
        rw [show (a :: P) ++ R = a :: (P ++ R) from rfl, pyFindAux_cons_eq,
          listStartsWith_single_false a c _ ha]
        simp
      rw [hstep, ihp (fun x hx => hP x (by simp [hx])) R (i + 1)]
      simp only [List.length_cons]
      rw [show i + (P.length + 1) = i + 1 + P.length from by omega]

theorem pyFind_clean_head (c : Char) (P R : List Char) (hP : ∀ x ∈ P, ¬x = c) :
    pyFind (P ++ c :: R) [c] = some P.length := by
  unfold pyFind
  rw [pyFindAux_skip c P hP (c :: R) 0, pyFindAux_cons_eq,
    if_pos (by simp [listStartsWith])]
  simp

theorem pyFind_clean_ge (c : Char) (P R : List Char) (hP : ∀ x ∈ P, ¬x = c)
    (j : Nat) (h : pyFind (P ++ R) [c] = some j) : P.length ≤ j := by
  unfold pyFind at h
  rw [pyFindAux_skip c P hP R 0] at h
  have := pyFindAux_ge [c] R (0 + P.length) j h
  omega

theorem tryParseJson_fallback (cs : List Char)
    (h0 : jsonLoads ⟨cs⟩ = Option.none)
    (hkq : pyFind cs ('"' :: "timetable".data ++ ['"']) = Option.none)
    (hkb : pyFind cs "timetable".data = Option.none) :
    tryParseJson ⟨cs⟩ =
      (match pyFind cs ['{'], pyFind cs ['['] with
       | Option.none, Option.none => PyVal.none
       | some i, Option.none => tpjLoop ⟨cs⟩ i cs.length
       | Option.none, some j => tpjLoop ⟨cs⟩ j cs.length
       | some i, some j => tpjLoop ⟨cs⟩ (min i j) cs.length) := by
  simp only [tryParseJson, h0, hkq, hkb]

/-- Claim C3, counterexample: the round trip does not hold for arbitrary
prose.  Embedding the serialized document `5` with prefix `"1"` and empty
suffix produces the string `"15"`, which `try_parse_json` parses directly
as the integer `15`, not the embedded `5`. -/
theorem json_roundtrip_cex :
    ("15" : String) = "1" ++ pySerialize (PyVal.int 5) ++ "" ∧
    tryParseJson "15" = PyVal.int 15 ∧
    ¬PyVal.int 15 = PyVal.int 5 :=
  ⟨by decide, by decide, by decide⟩

/-- Claim C3, amended: the round trip does hold for a well-formed JSON
array or object document (duplicate-free keys) embedded in prose, provided
the prose is genuinely prose: the whole text does not itself parse as
JSON, the prefix contains none of `'{'`, `'['`, `'"'`, and the text does
not contain the substring `"timetable"` (so the key-targeted extraction
stays inactive).  Then `try_parse_json` recovers a value deep-equal to the
embedded document. -/
theorem json_roundtrip_amended (d : PyVal) (p t : String)
    (hwf : pyWF d = true)
    (hshape : (∃ xs, d = PyVal.list xs) ∨ (∃ kvs, d = PyVal.dict kvs))
    (hp : ∀ c ∈ p.data, ¬c = '{' ∧ ¬c = '[' ∧ ¬c = '"')
    (hkq : pyFind (p.data ++ serVal d ++ t.data)
      ('"' :: "timetable".data ++ ['"']) = Option.none)
    (hkb : pyFind (p.data ++ serVal d ++ t.data) "timetable".data = Option.none)
    (hnw : jsonLoads ⟨p.data ++ serVal d ++ t.data⟩ = Option.none) :
    tryParseJson (p ++ pySerialize d ++ t) = d := by
  have hs : p ++ pySerialize d ++ t = (⟨p.data ++ serVal d ++ t.data⟩ : String) := by
    apply String.ext
    simp [pySerialize]
  rw [hs, tryParseJson_fallback _ hnw hkq hkb]
  have hlen : p.data.length + (serVal d).length ≤ (p.data ++ serVal d ++ t.data).length := by
    simp [List.length_append]
  rcases hshape with ⟨xs, rfl⟩ | ⟨kvs, rfl⟩
  · have harr : p.data ++ serVal (PyVal.list xs) ++ t.data =
        p.data ++ '[' :: ((serItems xs ++ [']']) ++ t.data) := by
      rw [show serVal (PyVal.list xs) = '[' :: (serItems xs ++ [']']) from rfl]
      simp
    have hj : pyFind (p.data ++ serVal (PyVal.list xs) ++ t.data) ['['] =
        some p.data.length := by
      rw [harr]
      exact pyFind_clean_head '[' p.data _ (fun x hx => (hp x hx).2.1)
    rw [hj]
    cases hi : pyFind (p.data ++ serVal (PyVal.list xs) ++ t.data) ['{'] with
    | none =>
        show tpjLoop ⟨p.data ++ serVal (PyVal.list xs) ++ t.data⟩ p.data.length
          (p.data ++ serVal (PyVal.list xs) ++ t.data).length = PyVal.list xs
        exact tpjLoop_ser (PyVal.list xs) p.data t.data hwf (fun _ => True.intro) _ hlen
    | some i =>
        have hi2 : p.data.length + 1 ≤ i := by
          have harr2 : p.data ++ serVal (PyVal.list xs) ++ t.data =
              (p.data ++ ['[']) ++ ((serItems xs ++ [']']) ++ t.data) := by
            rw [show serVal (PyVal.list xs) = '[' :: (serItems xs ++ [']']) from rfl]
            simp
          rw [harr2] at hi
          have hcl : ∀ x ∈ p.data ++ ['['], ¬x = '{' := by
            intro x hx
            rcases List.mem_append.mp hx with hx1 | hx1
            · exact (hp x hx1).1
            · simp at hx1
              subst hx1
              decide
          have := pyFind_clean_ge '{' (p.data ++ ['[']) _ hcl i hi
          simp only [List.length_append, List.length_cons, List.length_nil] at this
          omega
        show tpjLoop ⟨p.data ++ serVal (PyVal.list xs) ++ t.data⟩ (min i p.data.length)
          (p.data ++ serVal (PyVal.list xs) ++ t.data).length = PyVal.list xs
        rw [min_eq_right (by omega : p.data.length ≤ i)]
        exact tpjLoop_ser (PyVal.list xs) p.data t.data hwf (fun _ => True.intro) _ hlen
  · have harr : p.data ++ serVal (PyVal.dict kvs) ++ t.data =
        p.data ++ '{' :: ((serMembers kvs ++ ['}']) ++ t.data) := by
      rw [show serVal (PyVal.dict kvs) = '{' :: (serMembers kvs ++ ['}']) from rfl]
      simp
    have hi : pyFind (p.data ++ serVal (PyVal.dict kvs) ++ t.data) ['{'] =
        some p.data.length := by
      rw [harr]
      exact pyFind_clean_head '{' p.data _ (fun x hx => (hp x hx).1)
    rw [hi]
    cases hj : pyFind (p.data ++ serVal (PyVal.dict kvs) ++ t.data) ['['] with
    | none =>
        show tpjLoop ⟨p.data ++ serVal (PyVal.dict kvs) ++ t.data⟩ p.data.length
          (p.data ++ serVal (PyVal.dict kvs) ++ t.data).length = PyVal.dict kvs
        exact tpjLoop_ser (PyVal.dict kvs) p.data t.data hwf (fun _ => True.intro) _ hlen
    | some j =>
        have hj2 : p.data.length + 1 ≤ j := by
          have harr2 : p.data ++ serVal (PyVal.dict kvs) ++ t.data =
              (p.data ++ ['{']) ++ ((serMembers kvs ++ ['}']) ++ t.data) := by
            rw [show serVal (PyVal.dict kvs) = '{' :: (serMembers kvs ++ ['}']) from rfl]
            simp
          rw [harr2] at hj
          have hcl : ∀ x ∈ p.data ++ ['{'], ¬x = '[' := by
            intro x hx
            rcases List.mem_append.mp hx with hx1 | hx1
            · exact (hp x hx1).2.1
            · simp at hx1
              subst hx1
              decide
          have := pyFind_clean_ge '[' (p.data ++ ['{']) _ hcl j hj
          simp only [List.length_append, List.length_cons, List.length_nil] at this
          omega
        show tpjLoop ⟨p.data ++ serVal (PyVal.dict kvs) ++ t.data⟩ (min p.data.length j)
          (p.data ++ serVal (PyVal.dict kvs) ++ t.data).length = PyVal.dict kvs
        rw [min_eq_left (by omega : p.data.length ≤ j)]
        exact tpjLoop_ser (PyVal.dict kvs) p.data t.data hwf (fun _ => True.intro) _ hlen

/-- Witness for the amended C3 round trip at a concrete document and
prose: `try_parse_json "x: {\"a\":1}!"` recovers `{"a": 1}`. -/
theorem json_roundtrip_amended_witness :
    tryParseJson ("x: " ++ pySerialize (PyVal.dict [("a", PyVal.int 1)]) ++ "!") =
      PyVal.dict [("a", PyVal.int 1)] :=
  json_roundtrip_amended (PyVal.dict [("a", PyVal.int 1)]) "x: " "!"
    (by decide) (Or.inr ⟨_, rfl⟩) (by decide) (by decide) (by decide) (by decide)

end CF
